import Mathlib

/-!
Verification of the expression-evaluation core of the GUI calculator
(`src/calculator.py`).

Embedding conventions:

* Python integers are arbitrary precision and are modelled exactly by `ℤ`.
* Python floats (IEEE-754 doubles) are modelled as exact rationals `ℚ`.
  Every concrete computation appearing in a theorem below stays within
  values that are exactly representable as doubles, so this abstraction
  does not change any verdict.
* The transcendental library functions imported from `math`
  (`sin`, `cos`, `tan`, `sqrt`, `log`, `log10`, `radians`, `degrees`,
  the constants `pi` and `e`), the float rendering of `str`, and the
  float fallback of `**` are platform functions whose exact double
  values are not re-derived here; they are abstracted as fields of a
  `MathLib` parameter.  `factorial` is `math.factorial`, which is exact
  integer arithmetic, and is modelled concretely.
* `_evaluate_expression` delegates parsing and evaluation of the
  buffer text to CPython `eval(expr, {"__builtins__": None}, safe_env)`.
  That platform evaluator is embedded below (tokenizer, parser,
  evaluator) for the expression fragment reachable in the claims:
  decimal literals with an optional fractional part, identifiers,
  the operators `+ - * / **`, unary minus, parentheses, one-argument
  calls, and attribute access.  Python constructs outside the fragment
  (commas/tuples, `//`, `%`, comparisons, exponent-notation literals,
  non-ASCII identifiers, zero-argument calls) are mapped to
  `synError`; no theorem below depends on tokenizing such an input.
  Named expressions `(name:=value)`, which CPython `eval` accepts and
  which write into the locals mapping, are also outside the tokenized
  fragment; their `STORE_NAME` effect on the SymbolTable is modelled
  separately (`storeNAME`, `evalNamedExpr`).
-/

/-- A Python number: an exact `int` or a `float` (double, modelled as `ℚ`). -/
inductive PyNum where
  | int (z : ℤ)
  | float (q : ℚ)
deriving DecidableEq

/-- The Python exception kinds that the embedded fragment can raise.
These model CPython exception classes: `NameError`, `ZeroDivisionError`,
`TypeError`, `ValueError`, `AttributeError`, `SyntaxError`. -/
inductive PyErr where
  | nameError (s : String)
  | zeroDivisionError
  | typeError
  | valueError
  | attributeError
  | synError
deriving DecidableEq

/-- A Python value reachable in the embedded fragment: a number, a callable
(carrying its display name and its behaviour on numeric arguments), or a
class object (as produced by ambient `__class__` attribute resolution). -/
inductive PyVal where
  | num (n : PyNum)
  | func (name : String) (f : PyNum → Except PyErr PyNum)
  | cls (name : String)

/-- The coercion Python applies when an `int` meets float context. -/
def PyNum.toRat : PyNum → ℚ
  | .int z => (z : ℚ)
  | .float q => q

/-- Abstract interface to the platform `math` functions and float
formatting used by `calculator.py`.  Fields are the exact (double-valued,
hence rational) platform functions, left abstract. -/
structure MathLib where
  sin : ℚ → ℚ
  cos : ℚ → ℚ
  tan : ℚ → ℚ
  radians : ℚ → ℚ
  degrees : ℚ → ℚ
  sqrt : ℚ → Except PyErr ℚ
  log : ℚ → Except PyErr ℚ
  log10 : ℚ → Except PyErr ℚ
  pi : ℚ
  e : ℚ
  fpow : ℚ → ℚ → Except PyErr ℚ
  strFloat : ℚ → String
  strFunc : String → String
  strCls : String → String

/-- A concrete (trivial) instantiation of the abstract platform functions,
used only to instantiate universally quantified theorems at witnesses. -/
def trivLib : MathLib :=
  ⟨fun _ => 0, fun _ => 0, fun _ => 0, fun _ => 0, fun _ => 0,
   fun _ => .ok 0, fun _ => .ok 0, fun _ => .ok 0, 0, 0,
   fun _ _ => .ok 0, fun _ => "", fun _ => "", fun _ => ""⟩

/-- Wrap a total platform function as a Python callable: the argument is
coerced to float and the result is a float. -/
def wrap1 (f : ℚ → ℚ) : PyNum → Except PyErr PyNum :=
  fun x => .ok (.float (f x.toRat))

/-- Wrap a partial platform function (one that can raise, e.g. `sqrt` on a
negative argument) as a Python callable. -/
def wrapE (f : ℚ → Except PyErr ℚ) : PyNum → Except PyErr PyNum :=
  fun x => (f x.toRat).map .float

/-- The `math.factorial` function: exact on nonnegative ints, `ValueError`
on negative ints, `TypeError` on floats (CPython ≥ 3.10). -/
def pyFactorial : PyNum → Except PyErr PyNum
  | .int z => if z < 0 then .error .valueError else .ok (.int (Nat.factorial z.toNat))
  | .float _ => .error .typeError

/-- Python-dict lookup on an association list (keys here are distinct, so
first-match lookup agrees with dict semantics). -/
def lookupEnv : List (String × PyVal) → String → Option PyVal
  | [], _ => none
  | (k, v) :: rest, s => if k = s then some v else lookupEnv rest s

/-- Embedding of `CalculatorApplication._build_safe_environment`: the
SymbolTable handed to `eval` as its locals, built fresh per evaluation
from the degree-mode flag.  Entries appear in the source's dict order. -/
def _build_safe_environment (lib : MathLib) (is_degree_mode : Bool) :
    List (String × PyVal) :=
  let trig_map : List (String × PyVal) :=
    if is_degree_mode then
      [("sin", .func "sin_deg" (fun x => .ok (.float (lib.sin (lib.radians x.toRat))))),
       ("cos", .func "cos_deg" (fun x => .ok (.float (lib.cos (lib.radians x.toRat))))),
       ("tan", .func "tan_deg" (fun x => .ok (.float (lib.tan (lib.radians x.toRat)))))]
    else
      [("sin", .func "sin" (wrap1 lib.sin)),
       ("cos", .func "cos" (wrap1 lib.cos)),
       ("tan", .func "tan" (wrap1 lib.tan))]
  [("sqrt", .func "sqrt" (wrapE lib.sqrt)),
   ("log", .func "log" (wrapE lib.log)),
   ("log10", .func "log10" (wrapE lib.log10)),
   ("factorial", .func "factorial" pyFactorial),
   ("pi", .num (.float lib.pi)),
   ("e", .num (.float lib.e)),
   ("radians", .func "radians" (wrap1 lib.radians)),
   ("degrees", .func "degrees" (wrap1 lib.degrees))] ++ trig_map

/-- The key set of the SymbolTable, in the source's construction order. -/
def envKeys (lib : MathLib) (is_degree_mode : Bool) : List String :=
  (_build_safe_environment lib is_degree_mode).map Prod.fst

/-- Look up a name in the SymbolTable and apply it (as a callable) to a
numeric argument; `TypeError` if the name is absent or not callable. -/
def applyEnvFun (env : List (String × PyVal)) (name : String) (x : PyNum) :
    Except PyErr PyNum :=
  match lookupEnv env name with
  | some (.func _ f) => f x
  | _ => .error .typeError

/-- One-character textual substitution, exactly Python `str.replace` for a
single-character pattern: every occurrence of `c` is replaced by `rep`. -/
def repl1 (c : Char) (rep : List Char) : List Char → List Char
  | [] => []
  | x :: xs => (if x = c then rep else [x]) ++ repl1 c rep xs

/-- Embedding of the normalisation in `_evaluate_expression`:
`expr = raw_expr.replace("√", "sqrt")` followed by
`expr = expr.replace("^", "**")`.  These two substitutions are the only
rewriting the code performs on the buffer before handing it to `eval`. -/
def normalizeExpr (s : String) : String :=
  String.mk (repl1 '^' ['*', '*'] (repl1 '√' ['s', 'q', 'r', 't'] s.data))

/-- Membership in the output of `repl1`: every character comes from the
replacement text or is an untouched input character distinct from `c`. -/
theorem mem_repl1 {c : Char} {rep l : List Char} {x : Char}
    (h : x ∈ repl1 c rep l) : x ∈ rep ∨ (x ∈ l ∧ x ≠ c) := by
  induction l with
  | nil => simp [repl1] at h
  | cons y ys ih =>
    simp only [repl1, List.mem_append] at h
    rcases h with h | h
    · by_cases hy : y = c
      · simp [hy] at h
        exact Or.inl h
      · simp [hy] at h
        subst h
        exact Or.inr ⟨List.mem_cons_self _ _, hy⟩
    · rcases ih h with h' | ⟨hm, hne⟩
      · exact Or.inl h'
      · exact Or.inr ⟨List.mem_cons_of_mem _ hm, hne⟩

/-- `repl1` is the identity when the replaced character does not occur. -/
theorem repl1_eq_of_not_mem {c : Char} {rep : List Char} {l : List Char}
    (h : c ∉ l) : repl1 c rep l = l := by
  induction l with
  | nil => rfl
  | cons y ys ih =>
    have hy : y ≠ c := fun he => h (he ▸ List.mem_cons_self _ _)
    have hys : c ∉ ys := fun hm => h (List.mem_cons_of_mem _ hm)
    simp [repl1, hy, ih hys]

/-- The square-root glyph never occurs in normalised output. -/
theorem root_not_mem_normalize (s : String) : '√' ∉ (normalizeExpr s).data := by
  intro h
  have h1 : ('√' : Char) ∈ ['*', '*'] ∨
      ('√' ∈ repl1 '√' ['s', 'q', 'r', 't'] s.data ∧ ('√' : Char) ≠ '^') :=
    mem_repl1 h
  rcases h1 with h1 | ⟨h1, _⟩
  · simp at h1
  · rcases mem_repl1 h1 with h2 | ⟨_, h2⟩
    · simp at h2
    · exact h2 rfl

/-- The caret never occurs in normalised output. -/
theorem caret_not_mem_normalize (s : String) : '^' ∉ (normalizeExpr s).data := by
  intro h
  rcases mem_repl1 h with h1 | ⟨_, h2⟩
  · simp at h1
  · exact h2 rfl

/-- C9: normalisation is idempotent — applying the normaliser to its own
output is the identity, so text that is already canonical (free of the
two rewritten characters) is left unchanged. -/
theorem c9_normalize_idempotent :
    (∀ s : String, normalizeExpr (normalizeExpr s) = normalizeExpr s) ∧
    (∀ s : String, '√' ∉ s.data → '^' ∉ s.data → normalizeExpr s = s) := by
  constructor
  · intro s
    show String.mk _ = _
    rw [show (normalizeExpr s).data = (normalizeExpr s).data from rfl,
      repl1_eq_of_not_mem (root_not_mem_normalize s),
      repl1_eq_of_not_mem (caret_not_mem_normalize s)]
  · intro s h1 h2
    show String.mk _ = _
    rw [repl1_eq_of_not_mem h1, repl1_eq_of_not_mem h2]

/-- Witness for C9: the already-canonical text of the spec's own example,
"log(2)", is fixed by the normaliser, and double normalisation of
an arbitrary chosen text equals single normalisation. -/
theorem c9_normalize_idempotent_witness :
    normalizeExpr "log(2)" = "log(2)" ∧
    normalizeExpr (normalizeExpr "√9^2") = normalizeExpr "√9^2" :=
  ⟨c9_normalize_idempotent.2 "log(2)" (by decide) (by decide),
   c9_normalize_idempotent.1 "√9^2"⟩

/-- Build-time key list of the SymbolTable: for every angle mode the
dict literal of `_build_safe_environment` is constructed with exactly
the eleven enumerated keys, in the source's dict construction order
`sqrt, log, log10, factorial, pi, e, radians, degrees, sin, cos, tan`. -/
theorem c6_symbol_table_keys (lib : MathLib) (is_degree_mode : Bool) :
    envKeys lib is_degree_mode =
      ["sqrt", "log", "log10", "factorial", "pi", "e", "radians", "degrees",
       "sin", "cos", "tan"] := by
  cases is_degree_mode <;> rfl

/-- Ambient CPython name binding, as the `STORE_NAME` instruction
performs it on the locals mapping `eval` received — the SymbolTable
dict itself: an existing key is overwritten in place, a new key is
appended in insertion order. -/
def storeNAME (env : List (String × PyVal)) (name : String) (v : PyVal) :
    List (String × PyVal) :=
  match lookupEnv env name with
  | some _ => env.map (fun p => if p.1 = name then (name, v) else p)
  | none => env ++ [(name, v)]

/-- Ambient CPython evaluation of the parenthesised named expression
`(name:=n)` with an integer literal `n` — the slice exercised below:
the assignment executes `STORE_NAME` into the locals mapping and the
expression yields the assigned value. -/
def evalNamedExpr (env : List (String × PyVal)) (name : String) (n : ℤ) :
    PyVal × List (String × PyVal) :=
  (.num (.int n), storeNAME env name (.num (.int n)))

/-- C6 (supporting theorem): the name `x` is not a key of the
SymbolTable as built, yet the buffer `(x:=5)` — a named expression that
CPython `eval` accepts — executes `STORE_NAME` into the very dict that
was handed to `eval` as its locals: the evaluation yields 5 and mutates
the table, which afterwards holds the key `x`, outside the enumerated
set, bound to 5. -/
theorem c6_symbol_table_mutation_reachable (lib : MathLib) (is_degree_mode : Bool) :
    lookupEnv (_build_safe_environment lib is_degree_mode) "x" = none ∧
    (evalNamedExpr (_build_safe_environment lib is_degree_mode) "x" 5).1 =
      .num (.int 5) ∧
    ((evalNamedExpr (_build_safe_environment lib is_degree_mode) "x" 5).2).map
        Prod.fst =
      ["sqrt", "log", "log10", "factorial", "pi", "e", "radians", "degrees",
       "sin", "cos", "tan", "x"] ∧
    lookupEnv (evalNamedExpr (_build_safe_environment lib is_degree_mode) "x" 5).2
        "x" = some (.num (.int 5)) := by
  cases is_degree_mode <;> exact ⟨rfl, rfl, rfl, rfl⟩

/-- C7: in degree mode `sin`, `cos`, `tan` are bound to the platform
functions pre-composed with degree-to-radian conversion (the bound
function at `x` equals the plain radian-mode binding applied to
`radians x`); in radian mode they are the plain platform functions; and
each of the eight other bindings is the identical value in both modes. -/
theorem c7_trig_mode_bindings (lib : MathLib) (x : PyNum) :
    applyEnvFun (_build_safe_environment lib true) "sin" x =
      .ok (.float (lib.sin (lib.radians x.toRat))) ∧
    applyEnvFun (_build_safe_environment lib true) "cos" x =
      .ok (.float (lib.cos (lib.radians x.toRat))) ∧
    applyEnvFun (_build_safe_environment lib true) "tan" x =
      .ok (.float (lib.tan (lib.radians x.toRat))) ∧
    applyEnvFun (_build_safe_environment lib false) "sin" x =
      .ok (.float (lib.sin x.toRat)) ∧
    applyEnvFun (_build_safe_environment lib false) "cos" x =
      .ok (.float (lib.cos x.toRat)) ∧
    applyEnvFun (_build_safe_environment lib false) "tan" x =
      .ok (.float (lib.tan x.toRat)) ∧
    applyEnvFun (_build_safe_environment lib true) "sin" x =
      applyEnvFun (_build_safe_environment lib false) "sin"
        (.float (lib.radians x.toRat)) ∧
    applyEnvFun (_build_safe_environment lib true) "cos" x =
      applyEnvFun (_build_safe_environment lib false) "cos"
        (.float (lib.radians x.toRat)) ∧
    applyEnvFun (_build_safe_environment lib true) "tan" x =
      applyEnvFun (_build_safe_environment lib false) "tan"
        (.float (lib.radians x.toRat)) ∧
    lookupEnv (_build_safe_environment lib true) "sqrt" =
      lookupEnv (_build_safe_environment lib false) "sqrt" ∧
    lookupEnv (_build_safe_environment lib true) "log" =
      lookupEnv (_build_safe_environment lib false) "log" ∧
    lookupEnv (_build_safe_environment lib true) "log10" =
      lookupEnv (_build_safe_environment lib false) "log10" ∧
    lookupEnv (_build_safe_environment lib true) "factorial" =
      lookupEnv (_build_safe_environment lib false) "factorial" ∧
    lookupEnv (_build_safe_environment lib true) "pi" =
      lookupEnv (_build_safe_environment lib false) "pi" ∧
    lookupEnv (_build_safe_environment lib true) "e" =
      lookupEnv (_build_safe_environment lib false) "e" ∧
    lookupEnv (_build_safe_environment lib true) "radians" =
      lookupEnv (_build_safe_environment lib false) "radians" ∧
    lookupEnv (_build_safe_environment lib true) "degrees" =
      lookupEnv (_build_safe_environment lib false) "degrees" :=
  ⟨rfl, rfl, rfl, rfl, rfl, rfl, rfl, rfl, rfl, rfl, rfl, rfl, rfl, rfl,
   rfl, rfl, rfl⟩

/-- The simultaneous one-character substitution that characterises the
normaliser: the square-root glyph expands to the four characters `sqrt`
(with no parenthesis), the caret expands to `**`, and every other
character is left unchanged. -/
def substCanon (c : Char) : List Char :=
  if c = '√' then ['s', 'q', 'r', 't']
  else if c = '^' then ['*', '*'] else [c]

/-- Character-by-character expansion of a text under `substCanon`. -/
def flatSubst : List Char → List Char
  | [] => []
  | c :: cs => substCanon c ++ flatSubst cs

/-- `repl1` distributes over list concatenation. -/
theorem repl1_append (c : Char) (rep a b : List Char) :
    repl1 c rep (a ++ b) = repl1 c rep a ++ repl1 c rep b := by
  induction a with
  | nil => rfl
  | cons x xs ih => simp [repl1, ih]

/-- C2 (counterexample): the claimed substitution set is not the one the
code performs.  The square-root glyph becomes `sqrt` with no opening
parenthesis, and `÷`, `×`, `ln` pass through the normaliser unchanged
rather than becoming `/`, `*`, `log`. -/
theorem c2_normalization_counterexample :
    normalizeExpr "√9" = "sqrt9" ∧ normalizeExpr "√9" ≠ "sqrt(9" ∧
    normalizeExpr "÷6" = "÷6" ∧ normalizeExpr "÷6" ≠ "/6" ∧
    normalizeExpr "×" = "×" ∧ normalizeExpr "×" ≠ "*" ∧
    normalizeExpr "ln(2)" = "ln(2)" ∧ normalizeExpr "ln(2)" ≠ "log(2)" := by
  refine ⟨rfl, ?_, rfl, ?_, rfl, ?_, rfl, ?_⟩ <;> decide

/-- C2 (amended): the normalisation applied before evaluation performs
exactly two literal substitutions and nothing else — `√` becomes the
four-character name prefix `sqrt` (no parenthesis) and `^` becomes `**`;
the pass is equivalent to one simultaneous character-wise substitution
(so it is order-independent), and every character other than `√` and `^`
passes through unchanged and unvalidated. -/
theorem c2_normalization_two_substitutions (s : String) :
    (normalizeExpr s).data = flatSubst s.data ∧
    (∀ c : Char, c ≠ '√' → c ≠ '^' → substCanon c = [c]) := by
  constructor
  · show repl1 '^' _ (repl1 '√' _ s.data) = _
    induction s.data with
    | nil => rfl
    | cons x xs ih =>
      by_cases hx : x = '√'
      · subst hx
        have h1 : repl1 '√' ['s', 'q', 'r', 't'] ('√' :: xs) =
            ['s', 'q', 'r', 't'] ++ repl1 '√' ['s', 'q', 'r', 't'] xs := by
          simp [repl1]
        rw [h1, repl1_append, ih]
        rfl
      · have h1 : repl1 '√' ['s', 'q', 'r', 't'] (x :: xs) =
            [x] ++ repl1 '√' ['s', 'q', 'r', 't'] xs := by
          simp [repl1, hx]
        rw [h1, repl1_append, ih]
        by_cases hx2 : x = '^'
        · subst hx2
          rfl
        · have h2 : repl1 '^' ['*', '*'] [x] = [x] := by simp [repl1, hx2]
          rw [h2]
          show [x] ++ flatSubst xs = substCanon x ++ flatSubst xs
          simp [substCanon, hx, hx2]
  · intro c h1 h2
    simp [substCanon, h1, h2]

/-- The tokens of the embedded expression fragment: numeric literals,
identifiers, the operators `+ - * / **`, parentheses, and the attribute
dot. -/
inductive Tok where
  | num (v : PyNum)
  | ident (s : String)
  | plus
  | minus
  | star
  | slash
  | dstar
  | lparen
  | rparen
  | dot
deriving DecidableEq

/-- Numeric value of a decimal digit character. -/
def digitVal (c : Char) : ℕ := c.toNat - '0'.toNat

/-- First character of a Python identifier (ASCII fragment). -/
def identStart (c : Char) : Bool := c.isAlpha || c = '_'

/-- Continuation character of a Python identifier (ASCII fragment). -/
def identCont (c : Char) : Bool := c.isAlpha || c.isDigit || c = '_'

/-- Whitespace accepted between tokens by the tokenizer. -/
def isSpaceC (c : Char) : Bool := c = ' ' || c = '\t' || c = '\n' || c = '\r'

/-- Tokenizer state: between tokens, inside an integer literal, inside the
fractional part of a float literal (integer part, fraction digits read so
far, their count), or inside an identifier. -/
inductive TSt where
  | top
  | intSt (v : ℕ)
  | fracSt (i : ℕ) (fn : ℕ) (fl : ℕ)
  | identSt (acc : List Char)

/-- The float value of a decimal literal `i.f₁…f_fl` with fraction read as
the integer `fn`. -/
def fracVal (i fn fl : ℕ) : ℚ := (i : ℚ) + (fn : ℚ) / 10 ^ fl

/-- Fuel-indexed tokenizer for the embedded fragment of the CPython
lexer: one character is consumed per step, plus one extra step per
number/identifier token flush, so fuel `2·length + 2` always suffices.
Characters outside the fragment raise `SyntaxError`, as the CPython
parser does for stray glyphs such as `÷`.  The colon of a named
expression `(name:=value)` is outside the fragment too — CPython
accepts that syntax, and its effect on the SymbolTable is modelled
separately by `storeNAME` and `evalNamedExpr` rather than here. -/
def tokA : ℕ → TSt → List Char → Except PyErr (List Tok)
  | 0, _, _ => .error .synError
  | _ + 1, .top, [] => .ok []
  | f + 1, .top, c :: cs =>
    if identStart c then tokA f (.identSt [c]) cs
    else if c.isDigit then tokA f (.intSt (digitVal c)) cs
    else if isSpaceC c then tokA f .top cs
    else if c = '+' then (tokA f .top cs).map (Tok.plus :: ·)
    else if c = '-' then (tokA f .top cs).map (Tok.minus :: ·)
    else if c = '/' then (tokA f .top cs).map (Tok.slash :: ·)
    else if c = '(' then (tokA f .top cs).map (Tok.lparen :: ·)
    else if c = ')' then (tokA f .top cs).map (Tok.rparen :: ·)
    else if c = '*' then
      match cs with
      | '*' :: cs2 => (tokA f .top cs2).map (Tok.dstar :: ·)
      | _ => (tokA f .top cs).map (Tok.star :: ·)
    else if c = '.' then
      match cs with
      | d :: _ =>
        if d.isDigit then tokA f (.fracSt 0 0 0) cs
        else (tokA f .top cs).map (Tok.dot :: ·)
      | [] => (tokA f .top cs).map (Tok.dot :: ·)
    else .error .synError
  | _ + 1, .intSt v, [] => .ok [Tok.num (.int v)]
  | f + 1, .intSt v, c :: cs =>
    if c.isDigit then tokA f (.intSt (10 * v + digitVal c)) cs
    else if c = '.' then tokA f (.fracSt v 0 0) cs
    else (tokA f .top (c :: cs)).map (Tok.num (.int v) :: ·)
  | _ + 1, .fracSt i fn fl, [] => .ok [Tok.num (.float (fracVal i fn fl))]
  | f + 1, .fracSt i fn fl, c :: cs =>
    if c.isDigit then tokA f (.fracSt i (10 * fn + digitVal c) (fl + 1)) cs
    else (tokA f .top (c :: cs)).map (Tok.num (.float (fracVal i fn fl)) :: ·)
  | _ + 1, .identSt acc, [] => .ok [Tok.ident (String.mk acc)]
  | f + 1, .identSt acc, c :: cs =>
    if identCont c then tokA f (.identSt (acc ++ [c])) cs
    else (tokA f .top (c :: cs)).map (Tok.ident (String.mk acc) :: ·)

/-- Binary operators of the fragment. -/
inductive BOp where
  | add
  | sub
  | mul
  | div
  | pow
deriving DecidableEq

/-- Abstract syntax of the embedded Python expression fragment, as the
CPython parser produces it: literals, name lookups, unary minus/plus,
binary operations, one-argument calls, and attribute access. -/
inductive PExpr where
  | lit (v : PyNum)
  | name (s : String)
  | neg (e : PExpr)
  | pos (e : PExpr)
  | binop (op : BOp) (l : PExpr) (r : PExpr)
  | call (fe : PExpr) (ae : PExpr)
  | attr (e : PExpr) (fld : String)
deriving DecidableEq

/-- Parser level, mirroring CPython's expression grammar for the
fragment: sums (left-associative `+ -`), products (left-associative
`* /`), unary sign, power (`**`, right operand parsed at unary level so
the operator is right-associative and binds looser than a left unary
minus), postfix trailers (calls and attributes), and atoms. -/
inductive PLvl where
  | expr
  | exprLoop (acc : PExpr)
  | term
  | termLoop (acc : PExpr)
  | unary
  | power
  | post
  | postLoop (acc : PExpr)
  | atom

/-- Fuel-indexed recursive-descent parser for the fragment, following
CPython's grammar and precedence.  Returns the parsed expression and the
unconsumed tokens. -/
def parseToks : ℕ → PLvl → List Tok → Except PyErr (PExpr × List Tok)
  | 0, _, _ => .error .synError
  | f + 1, lvl, toks =>
    match lvl with
    | .expr => do
      let (l, ts) ← parseToks f .term toks
      parseToks f (.exprLoop l) ts
    | .exprLoop acc =>
      match toks with
      | .plus :: ts => do
        let (r, ts2) ← parseToks f .term ts
        parseToks f (.exprLoop (.binop .add acc r)) ts2
      | .minus :: ts => do
        let (r, ts2) ← parseToks f .term ts
        parseToks f (.exprLoop (.binop .sub acc r)) ts2
      | _ => .ok (acc, toks)
    | .term => do
      let (l, ts) ← parseToks f .unary toks
      parseToks f (.termLoop l) ts
    | .termLoop acc =>
      match toks with
      | .star :: ts => do
        let (r, ts2) ← parseToks f .unary ts
        parseToks f (.termLoop (.binop .mul acc r)) ts2
      | .slash :: ts => do
        let (r, ts2) ← parseToks f .unary ts
        parseToks f (.termLoop (.binop .div acc r)) ts2
      | _ => .ok (acc, toks)
    | .unary =>
      match toks with
      | .minus :: ts => do
        let (e, ts2) ← parseToks f .unary ts
        .ok (.neg e, ts2)
      | .plus :: ts => do
        let (e, ts2) ← parseToks f .unary ts
        .ok (.pos e, ts2)
      | _ => parseToks f .power toks
    | .power => do
      let (a, ts) ← parseToks f .post toks
      match ts with
      | .dstar :: ts2 => do
        let (r, ts3) ← parseToks f .unary ts2
        .ok (.binop .pow a r, ts3)
      | _ => .ok (a, ts)
    | .post => do
      let (a, ts) ← parseToks f .atom toks
      parseToks f (.postLoop a) ts
    | .postLoop acc =>
      match toks with
      | .lparen :: ts => do
        let (arg, ts2) ← parseToks f .expr ts
        match ts2 with
        | .rparen :: ts3 => parseToks f (.postLoop (.call acc arg)) ts3
        | _ => .error .synError
      | .dot :: .ident s :: ts => parseToks f (.postLoop (.attr acc s)) ts
      | .dot :: _ => .error .synError
      | _ => .ok (acc, toks)
    | .atom =>
      match toks with
      | .num v :: ts => .ok (.lit v, ts)
      | .ident s :: ts => .ok (.name s, ts)
      | .lparen :: ts => do
        let (e, ts2) ← parseToks f .expr ts
        match ts2 with
        | .rparen :: ts3 => .ok (e, ts3)
        | _ => .error .synError
      | _ => .error .synError

/-- Python unary minus on values. -/
def pyNeg : PyVal → Except PyErr PyVal
  | .num (.int z) => .ok (.num (.int (-z)))
  | .num (.float q) => .ok (.num (.float (-q)))
  | _ => .error .typeError

/-- Python unary plus on values. -/
def pyPos : PyVal → Except PyErr PyVal
  | .num n => .ok (.num n)
  | _ => .error .typeError

/-- Python `+` on numbers: exact on two ints, float otherwise. -/
def pyAdd : PyNum → PyNum → PyNum
  | .int a, .int b => .int (a + b)
  | a, b => .float (a.toRat + b.toRat)

/-- Python `-` on numbers. -/
def pySub : PyNum → PyNum → PyNum
  | .int a, .int b => .int (a - b)
  | a, b => .float (a.toRat - b.toRat)

/-- Python `*` on numbers. -/
def pyMul : PyNum → PyNum → PyNum
  | .int a, .int b => .int (a * b)
  | a, b => .float (a.toRat * b.toRat)

/-- Python `/` on numbers: true division, always a float; raises
`ZeroDivisionError` exactly when the divisor is zero (int or float). -/
def pyDiv (a b : PyNum) : Except PyErr PyNum :=
  if b.toRat = 0 then .error .zeroDivisionError
  else .ok (.float (a.toRat / b.toRat))

/-- Python `**` on numbers: exact int power for nonnegative int
exponents, `ZeroDivisionError` for `0` raised to a negative power,
exact rational power for the remaining integral exponents, and the
abstract platform float power for fractional exponents. -/
def pyPow (lib : MathLib) (a b : PyNum) : Except PyErr PyNum :=
  match a, b with
  | .int x, .int y =>
    if 0 ≤ y then .ok (.int (x ^ y.toNat))
    else if x = 0 then .error .zeroDivisionError
    else .ok (.float ((x : ℚ) ^ y))
  | a, b =>
    if a.toRat = 0 ∧ b.toRat.num < 0 then .error .zeroDivisionError
    else if b.toRat.den = 1 then .ok (.float (a.toRat ^ b.toRat.num))
    else (lib.fpow a.toRat b.toRat).map .float

/-- Dispatch of a binary operator on two values; non-numeric operands
raise `TypeError`, as in Python. -/
def applyBOp (lib : MathLib) : BOp → PyVal → PyVal → Except PyErr PyVal
  | .add, .num a, .num b => .ok (.num (pyAdd a b))
  | .sub, .num a, .num b => .ok (.num (pySub a b))
  | .mul, .num a, .num b => .ok (.num (pyMul a b))
  | .div, .num a, .num b => (pyDiv a b).map .num
  | .pow, .num a, .num b => (pyPow lib a b).map .num
  | _, _, _ => .error .typeError

/-- Ambient CPython attribute resolution, restricted to the `__class__`
attribute of numeric values (the slice exercised below); all other
attributes are conservatively mapped to `AttributeError`.  This
resolution happens entirely outside the SymbolTable: it is the object
protocol of the interpreter that `eval` exposes. -/
def pyGetAttr : PyVal → String → Except PyErr PyVal
  | .num (.int _), "__class__" => .ok (.cls "int")
  | .num (.float _), "__class__" => .ok (.cls "float")
  | _, _ => .error .attributeError

/-- Bottom-up evaluation of a parsed expression, as CPython `eval`
performs it: names resolve against the locals mapping (the SymbolTable)
only — a miss raises `NameError` since `__builtins__` is `None` — while
attribute access resolves through the ambient object protocol. -/
def evalPE (lib : MathLib) (env : List (String × PyVal)) : PExpr → Except PyErr PyVal
  | .lit v => .ok (.num v)
  | .name s =>
    match lookupEnv env s with
    | some v => .ok v
    | none => .error (.nameError s)
  | .neg e => do pyNeg (← evalPE lib env e)
  | .pos e => do pyPos (← evalPE lib env e)
  | .binop op l r => do
    let vl ← evalPE lib env l
    let vr ← evalPE lib env r
    applyBOp lib op vl vr
  | .call fe ae => do
    let vf ← evalPE lib env fe
    let va ← evalPE lib env ae
    match vf, va with
    | .func _ g, .num n => (g n).map .num
    | _, _ => .error .typeError
  | .attr e fld => do pyGetAttr (← evalPE lib env e) fld

/-- Embedding of `eval(expr, {"__builtins__": None}, safe_env)` on
canonical text: tokenize, parse a complete expression, and evaluate it
against the SymbolTable built for the given angle mode. -/
def evalText (lib : MathLib) (is_degree_mode : Bool) (s : String) :
    Except PyErr PyVal := do
  let toks ← tokA (2 * s.data.length + 2) .top s.data
  let (e, rest) ← parseToks (10 * (toks.length + 1)) .expr toks
  match rest with
  | [] => evalPE lib (_build_safe_environment lib is_degree_mode) e
  | _ => .error .synError

/-- The two dialog kinds the except-chain of `_evaluate_expression` can
surface: `("Math Error", "Division by zero is undefined.")` for
`ZeroDivisionError`, and `("Error", "Invalid expression: …")` for every
other exception. -/
inductive Dialog where
  | mathError
  | genericError
deriving DecidableEq

/-- The classification performed by the `except` chain of
`_evaluate_expression`: `ZeroDivisionError` gets its own dialog, every
other exception falls into the generic `Invalid expression` dialog. -/
def classify : PyErr → Dialog
  | .zeroDivisionError => .mathError
  | _ => .genericError

/-- Decimal digit character for a value below ten. -/
def digitChar (d : ℕ) : Char := Char.ofNat ('0'.toNat + d)

/-- Fuel-indexed most-significant-first decimal rendering accumulator. -/
def natStrGo : ℕ → ℕ → List Char → List Char
  | 0, n, acc => digitChar n :: acc
  | f + 1, n, acc =>
    if n < 10 then digitChar n :: acc
    else natStrGo f (n / 10) (digitChar (n % 10) :: acc)

/-- Decimal rendering of a natural number, as Python `str` renders it. -/
def natStr (n : ℕ) : List Char := natStrGo n n []

/-- Python `str` on an int. -/
def intStr (z : ℤ) : String :=
  if z < 0 then String.mk ('-' :: natStr (-z).toNat) else String.mk (natStr z.toNat)

/-- Python `str` on a value of the fragment: exact for ints, abstract
platform rendering for floats, functions and classes. -/
def pyStrVal (lib : MathLib) : PyVal → String
  | .num (.int z) => intStr z
  | .num (.float q) => lib.strFloat q
  | .func n _ => lib.strFunc n
  | .cls n => lib.strCls n

/-- Characters stripped by Python `str.strip`, restricted to the six
ASCII whitespace characters (Python also strips `\x1c`–`\x1f`, `\x85`,
`\xa0` and Unicode spaces; on a buffer of those the skip test differs,
but both the model and the program then leave the buffer unchanged on
every path, so no verdict depends on them). -/
def isPySpace (c : Char) : Bool :=
  c = ' ' || c = '\t' || c = '\n' || c = '\r' || c = '\x0b' || c = '\x0c'

/-- Embedding of `CalculatorApplication._evaluate_expression` as a
transition on the buffer: returns the new buffer content and the dialog
shown, if any.  A buffer that is empty after stripping is skipped; on a
successful evaluation the buffer is replaced by the stringified result;
on an exception the buffer is untouched and a dialog is shown. -/
def _evaluate_expression (lib : MathLib) (is_degree_mode : Bool)
    (input_text : String) : String × Option Dialog :=
  if input_text.data.all isPySpace then (input_text, none)
  else
    match evalText lib is_degree_mode (normalizeExpr input_text) with
    | .ok result => (pyStrVal lib result, none)
    | .error err => (input_text, some (classify err))

/-- Embedding of `CalculatorApplication._toggle_sign`: the handler of the
`±` button. -/
def _toggle_sign (input_text : String) : String :=
  if input_text = "" then input_text else "(-1)*(" ++ input_text ++ ")"

/-- Normalisation is the identity on text containing neither of the two
rewritten characters. -/
theorem normalizeExpr_of_no_glyph {s : String} (h1 : '√' ∉ s.data)
    (h2 : '^' ∉ s.data) : normalizeExpr s = s := by
  show String.mk _ = s
  rw [repl1_eq_of_not_mem h1, repl1_eq_of_not_mem h2]

/-- C1 (supporting theorem): the identifier `__class__` is not a key of
the SymbolTable, yet evaluating the canonical text `e.__class__`
succeeds, yielding the class object `float` through ambient attribute
resolution — `eval` reaches reflection that is not in the table. -/
theorem c1_ambient_reflection_reachable (lib : MathLib) (is_degree_mode : Bool) :
    lookupEnv (_build_safe_environment lib is_degree_mode) "__class__" = none ∧
    evalText lib is_degree_mode "e.__class__" = .ok (.cls "float") := by
  cases is_degree_mode <;> exact ⟨rfl, rfl⟩

/-- C4: a division whose two operands evaluate to numbers with the
divisor exactly zero raises `ZeroDivisionError`; in particular `1/0`
does so in either angle mode; and the except-chain classifies exactly
`ZeroDivisionError` into its own (`Math Error`) dialog, distinct from
the dialog of every other failure. -/
theorem c4_division_by_zero (lib : MathLib) (is_degree_mode : Bool)
    (env : List (String × PyVal)) (l r : PExpr) (vl vr : PyNum)
    (hl : evalPE lib env l = .ok (.num vl)) (hr : evalPE lib env r = .ok (.num vr))
    (hz : vr.toRat = 0) :
    evalPE lib env (.binop .div l r) = .error .zeroDivisionError ∧
    evalText lib is_degree_mode "1/0" = .error .zeroDivisionError ∧
    (∀ er : PyErr, classify er = .mathError ↔ er = .zeroDivisionError) := by
  refine ⟨?_, by cases is_degree_mode <;> rfl, ?_⟩
  · show (do
      let a ← evalPE lib env l
      let b ← evalPE lib env r
      applyBOp lib .div a b) = _
    rw [hl, hr]
    show Except.map PyVal.num (pyDiv vl vr) = _
    unfold pyDiv
    rw [if_pos hz]
    rfl
  · intro er
    cases er <;> simp [classify]

/-- Witness for C4: the general division lemma applied to the literal
division `1/0`, plus the concrete evaluation of the text `1/0`. -/
theorem c4_division_by_zero_witness :
    evalPE trivLib [] (.binop .div (.lit (.int 1)) (.lit (.int 0))) =
      .error .zeroDivisionError ∧
    evalText trivLib true "1/0" = .error .zeroDivisionError :=
  ⟨(c4_division_by_zero trivLib true [] (.lit (.int 1)) (.lit (.int 0))
      (.int 1) (.int 0) rfl rfl rfl).1,
   (c4_division_by_zero trivLib true [] (.lit (.int 1)) (.lit (.int 0))
      (.int 1) (.int 0) rfl rfl rfl).2.1⟩

/-- C10: the `±` handler wraps a non-empty buffer `b` as exactly
`(-1)*(` ++ b ++ `)`, is a no-op on the empty buffer, and the wrapped
buffer `3+4` evaluates to the integer `-7`. -/
theorem c10_toggle_sign (lib : MathLib) (is_degree_mode : Bool)
    (b : String) (hb : b ≠ "") :
    _toggle_sign b = "(-1)*(" ++ b ++ ")" ∧
    _toggle_sign "" = "" ∧
    evalText lib is_degree_mode (_toggle_sign "3+4") = .ok (.num (.int (-7))) := by
  refine ⟨by simp [_toggle_sign, hb], rfl, by cases is_degree_mode <;> rfl⟩

/-- Witness for C10: the sign toggle applied to the concrete buffer
`3+4` and its evaluation to `-7`. -/
theorem c10_toggle_sign_witness :
    _toggle_sign "3+4" = "(-1)*(3+4)" ∧
    evalText trivLib true (_toggle_sign "3+4") = .ok (.num (.int (-7))) :=
  ⟨(c10_toggle_sign trivLib true "3+4" (by decide)).1,
   (c10_toggle_sign trivLib true "3+4" (by decide)).2.2⟩

/-- A string of strippable whitespace tokenizes to no tokens at all (the
four tokenizer whitespace characters) or is rejected outright (vertical
tab and form feed, which CPython's tokenizer does not accept). -/
theorem tokA_all_space (cs : List Char) : ∀ f : ℕ, cs.length < f →
    cs.all isPySpace = true →
    tokA f .top cs = .ok [] ∨ tokA f .top cs = .error .synError := by
  induction cs with
  | nil =>
    intro f hf _
    match f, hf with
    | g + 1, _ => exact Or.inl rfl
  | cons c cs ih =>
    intro f hf hall
    obtain ⟨g, rfl⟩ : ∃ g : ℕ, f = g + 1 := ⟨f - 1, by omega⟩
    simp only [List.all_cons, Bool.and_eq_true] at hall
    obtain ⟨hc, hcs⟩ := hall
    have hg : cs.length < g := by
      simp only [List.length_cons] at hf
      omega
    simp only [isPySpace, Bool.or_eq_true, decide_eq_true_eq] at hc
    rcases hc with ((((hc | hc) | hc) | hc) | hc) | hc <;> subst hc
    · exact ih g hg hcs
    · exact ih g hg hcs
    · exact ih g hg hcs
    · exact ih g hg hcs
    · exact Or.inr rfl
    · exact Or.inr rfl

/-- Evaluating a string that strips to empty always fails (so the skip
guard in `_evaluate_expression` is the only path for such buffers). -/
theorem evalText_all_space (lib : MathLib) (is_degree_mode : Bool)
    (s : String) (h : s.data.all isPySpace = true) :
    ∃ er : PyErr, evalText lib is_degree_mode s = .error er := by
  rcases tokA_all_space s.data (2 * s.data.length + 2) (by omega) h with h1 | h1
  · refine ⟨.synError, ?_⟩
    unfold evalText
    rw [h1]
    rfl
  · refine ⟨.synError, ?_⟩
    unfold evalText
    rw [h1]
    rfl

/-- C5: the buffer transition of `_evaluate_expression` is atomic on
error — every evaluation that raises leaves the buffer exactly as it
was (a dialog is shown instead) — and only a successful evaluation
replaces the buffer, with the stringified result. -/
theorem c5_buffer_atomic (lib : MathLib) (is_degree_mode : Bool) (buf : String) :
    (∀ err : PyErr,
      evalText lib is_degree_mode (normalizeExpr buf) = .error err →
      (_evaluate_expression lib is_degree_mode buf).1 = buf) ∧
    (∀ v : PyVal,
      evalText lib is_degree_mode (normalizeExpr buf) = .ok v →
      _evaluate_expression lib is_degree_mode buf = (pyStrVal lib v, none)) := by
  constructor
  · intro err herr
    unfold _evaluate_expression
    by_cases hs : buf.data.all isPySpace
    · simp [hs]
    · simp [hs, herr]
  · intro v hv
    have hns : ¬ buf.data.all isPySpace = true := by
      intro hs
      have hng : normalizeExpr buf = buf := by
        refine normalizeExpr_of_no_glyph (fun hm => ?_) (fun hm => ?_) <;>
          · have h2 := List.all_eq_true.mp hs _ hm
            simp [isPySpace] at h2
      rcases evalText_all_space lib is_degree_mode buf hs with ⟨er, he⟩
      rw [hng] at hv
      rw [hv] at he
      exact Except.noConfusion he
    unfold _evaluate_expression
    simp [hns, hv]

/-- Witness for C5: the failing evaluation of `1/0` leaves the buffer
unchanged, and the successful evaluation of `3+4` replaces the buffer
with the stringified result `7`. -/
theorem c5_buffer_atomic_witness :
    (_evaluate_expression trivLib true "1/0").1 = "1/0" ∧
    _evaluate_expression trivLib true "3+4" = ("7", none) :=
  ⟨(c5_buffer_atomic trivLib true "1/0").1 .zeroDivisionError rfl,
   (c5_buffer_atomic trivLib true "3+4").2 (.num (.int 7)) rfl⟩

/-- C3 (counterexample): `foo(1)` does fail — with a `NameError` — but
the except-chain surfaces it through the same generic
`Invalid expression` dialog as a plain syntax error such as `2+`; there
is no `UnknownSymbol` failure kind distinct from the other kinds. -/
theorem c3_unknown_symbol_counterexample :
    evalText trivLib true "foo(1)" = .error (.nameError "foo") ∧
    evalText trivLib true "2+" = .error .synError ∧
    classify (.nameError "foo") = classify .synError ∧
    classify (.nameError "foo") = .genericError :=
  ⟨rfl, rfl, rfl, rfl⟩

/-- Identifier continuation: the tokenizer absorbs a run of identifier
characters into the accumulator. -/
theorem tokA_identSeg (cs : List Char) : ∀ (acc bs : List Char) (f : ℕ),
    cs.all identCont = true →
    tokA (cs.length + f) (.identSt acc) (cs ++ bs) =
      tokA f (.identSt (acc ++ cs)) bs := by
  induction cs with
  | nil =>
    intro acc bs f _
    simp
  | cons c cs ih =>
    intro acc bs f hall
    simp only [List.all_cons, Bool.and_eq_true] at hall
    obtain ⟨hc, hcs⟩ := hall
    have hlen : (c :: cs).length + f = (cs.length + f) + 1 := by
      simp only [List.length_cons]
      omega
    rw [hlen]
    have hstep : tokA ((cs.length + f) + 1) (.identSt acc) ((c :: cs) ++ bs)
        = tokA (cs.length + f) (.identSt (acc ++ [c])) (cs ++ bs) := by
      show tokA ((cs.length + f) + 1) (.identSt acc) (c :: (cs ++ bs)) = _
      simp only [tokA]
      rw [if_pos hc]
    rw [hstep, ih (acc ++ [c]) bs f hcs, List.append_assoc]
    rfl

/-- A nonempty all-letter identifier followed by `(1)` tokenizes to the
four tokens `ident, (, 1, )`, for any surplus fuel. -/
theorem tokA_ident_call (id : List Char) (h1 : id ≠ [])
    (h2 : id.all Char.isAlpha = true) (f : ℕ) :
    tokA (id.length + (f + 6)) .top (id ++ ['(', '1', ')']) =
      .ok [.ident (String.mk id), .lparen, .num (.int 1), .rparen] := by
  match id, h1 with
  | c :: cs, _ =>
    simp only [List.all_cons, Bool.and_eq_true] at h2
    obtain ⟨hc, hcs⟩ := h2
    have hstart : identStart c = true := by simp [identStart, hc]
    have hcont : cs.all identCont = true := by
      refine List.all_eq_true.mpr fun x hx => ?_
      have hx2 := List.all_eq_true.mp hcs x hx
      simp [identCont, hx2]
    have hlen : (c :: cs).length + (f + 6) = (cs.length + (f + 6)) + 1 := by
      simp only [List.length_cons]
      omega
    rw [hlen]
    have hstep : tokA ((cs.length + (f + 6)) + 1) .top ((c :: cs) ++ ['(', '1', ')'])
        = tokA (cs.length + (f + 6)) (.identSt [c]) (cs ++ ['(', '1', ')']) := by
      show tokA ((cs.length + (f + 6)) + 1) .top (c :: (cs ++ ['(', '1', ')'])) = _
      simp only [tokA]
      rw [if_pos hstart]
    rw [hstep, tokA_identSeg cs [c] ['(', '1', ')'] (f + 6) hcont]
    show tokA (f + 6) (.identSt (c :: cs)) ['(', '1', ')'] = _
    rfl

/-- C3 (amended): calling any all-letter identifier that is not a key of
the SymbolTable, as in `foo(1)`, fails with a `NameError` naming that
identifier, which the except-chain surfaces through the single generic
`Invalid expression` dialog — the same dialog kind as a syntax error —
rather than through a failure kind of its own. -/
theorem c3_unknown_symbol_generic (lib : MathLib) (is_degree_mode : Bool)
    (id : String) (h1 : id.data ≠ []) (h2 : id.data.all Char.isAlpha = true)
    (h3 : id ∉ (["sqrt", "log", "log10", "factorial", "pi", "e", "radians",
      "degrees", "sin", "cos", "tan"] : List String)) :
    evalText lib is_degree_mode (id ++ "(1)") = .error (.nameError id) ∧
    classify (.nameError id) = .genericError ∧
    classify (.nameError id) = classify .synError := by
  refine ⟨?_, rfl, rfl⟩
  simp only [List.mem_cons, List.not_mem_nil, or_false, not_or] at h3
  obtain ⟨n1, n2, n3, n4, n5, n6, n7, n8, n9, n10, n11⟩ := h3
  have m1 := Ne.symm n1
  have m2 := Ne.symm n2
  have m3 := Ne.symm n3
  have m4 := Ne.symm n4
  have m5 := Ne.symm n5
  have m6 := Ne.symm n6
  have m7 := Ne.symm n7
  have m8 := Ne.symm n8
  have m9 := Ne.symm n9
  have m10 := Ne.symm n10
  have m11 := Ne.symm n11
  have hdata : (id ++ "(1)").data = id.data ++ ['(', '1', ')'] := rfl
  have hlen : (id ++ "(1)").data.length = id.data.length + 3 := by
    rw [hdata]
    simp
  have harith : 2 * (id.data.length + 3) + 2 =
      id.data.length + ((id.data.length + 2) + 6) := by omega
  have htok : tokA (2 * (id ++ "(1)").data.length + 2) .top (id ++ "(1)").data
      = .ok [.ident id, .lparen, .num (.int 1), .rparen] := by
    rw [hlen, hdata, harith]
    exact tokA_ident_call id.data h1 h2 (id.data.length + 2)
  have hlook : lookupEnv (_build_safe_environment lib is_degree_mode) id = none := by
    cases is_degree_mode <;>
      simp [_build_safe_environment, lookupEnv,
        m1, m2, m3, m4, m5, m6, m7, m8, m9, m10, m11]
  unfold evalText
  rw [htok]
  show evalPE lib (_build_safe_environment lib is_degree_mode)
    (.call (.name id) (.lit (.int 1))) = _
  simp only [evalPE, hlook]
  rfl

/-- Witness for C3 (amended): the identifier `foo` of the spec's example,
applied to the argument `1`. -/
theorem c3_unknown_symbol_generic_witness :
    evalText trivLib true ("foo" ++ "(1)") = .error (.nameError "foo") ∧
    classify (.nameError "foo") = .genericError :=
  ⟨(c3_unknown_symbol_generic trivLib true "foo" (by decide) (by decide)
      (by decide)).1,
   (c3_unknown_symbol_generic trivLib true "foo" (by decide) (by decide)
      (by decide)).2.1⟩

/-- Specification-side abstract syntax for the family of claims about
operator precedence: expressions built only from numeric literals
(decimal, with an optional fractional digit list) and the five binary
operators, with grouping expressed by tree structure. -/
inductive Arith where
  | lit (i : ℕ) (frac : Option (List (Fin 10)))
  | bin (op : BOp) (l : Arith) (r : Arith)
deriving DecidableEq

/-- Most-significant-first accumulation of a digit list. -/
def digitsFold (ds : List (Fin 10)) : ℕ :=
  ds.foldl (fun a d => 10 * a + d.val) 0

/-- The Python value of a literal: an int when there is no fractional
part, otherwise the float `i.d₁…d_k`. -/
def litVal : ℕ → Option (List (Fin 10)) → PyNum
  | i, none => .int i
  | i, some ds => .float (fracVal i (digitsFold ds) ds.length)

/-- Standard operator-precedence evaluation of an expression tree: the
value of each node is obtained from the values of its operand subtrees
by the corresponding Python arithmetic operation. -/
def evalArith (lib : MathLib) : Arith → Except PyErr PyNum
  | .lit i frac => .ok (litVal i frac)
  | .bin op l r => do
    let vl ← evalArith lib l
    let vr ← evalArith lib r
    match op with
    | .add => .ok (pyAdd vl vr)
    | .sub => .ok (pySub vl vr)
    | .mul => .ok (pyMul vl vr)
    | .div => pyDiv vl vr
    | .pow => pyPow lib vl vr

/-- The parsed form the tree corresponds to. -/
def toPExpr : Arith → PExpr
  | .lit i frac => .lit (litVal i frac)
  | .bin op l r => .binop op (toPExpr l) (toPExpr r)

/-- Grammar level of each operator: `+ -` lowest (0), `* /` next (1),
`**` tightest among the binary operators (3). -/
def opLevel : BOp → ℕ
  | .add => 0
  | .sub => 0
  | .mul => 1
  | .div => 1
  | .pow => 3

/-- Rendering level of the left operand: `+ -` and `* /` are
left-associative (left operand at the operator's own level), while the
left operand of `**` is an atom (so a nested power on the left must be
parenthesised — `**` is right-associative). -/
def leftCtx : BOp → ℕ
  | .add => 0
  | .sub => 0
  | .mul => 1
  | .div => 1
  | .pow => 4

/-- Rendering level of the right operand: one step tighter for the
left-associative operators, and the unary level for `**` (so a nested
power on the right needs no parentheses — right-associativity). -/
def rightCtx : BOp → ℕ
  | .add => 1
  | .sub => 1
  | .mul => 2
  | .div => 2
  | .pow => 2

/-- Concrete character spelling of each operator. -/
def opChars : BOp → List Char
  | .add => ['+']
  | .sub => ['-']
  | .mul => ['*']
  | .div => ['/']
  | .pow => ['*', '*']

/-- Token of each operator. -/
def opTok : BOp → Tok
  | .add => .plus
  | .sub => .minus
  | .mul => .star
  | .div => .slash
  | .pow => .dstar

/-- Minimal-parenthesis rendering of a tree at a context level, per the
precedence and associativity stated in the specification: a node is
parenthesised exactly when its operator binds looser than its context
demands. -/
def renderArith : Arith → ℕ → List Char
  | .lit i frac, _ =>
    natStr i ++ (match frac with
      | none => []
      | some ds => '.' :: ds.map (fun d => digitChar d.val))
  | .bin op l r, ctx =>
    let core := renderArith l (leftCtx op) ++ opChars op ++ renderArith r (rightCtx op)
    if opLevel op < ctx then '(' :: (core ++ [')']) else core

/-- The token list the rendering of a tree lexes to. -/
def toksArith : Arith → ℕ → List Tok
  | .lit i frac, _ => [Tok.num (litVal i frac)]
  | .bin op l r, ctx =>
    let core := toksArith l (leftCtx op) ++ opTok op :: toksArith r (rightCtx op)
    if opLevel op < ctx then Tok.lparen :: (core ++ [Tok.rparen]) else core

/-- Exact tokenizer fuel consumption of a rendered tree (one unit per
character plus one flush step per numeric token, with `**` consuming
two characters in one step). -/
def tcost : Arith → ℕ → ℕ
  | .lit i none, _ => (natStr i).length + 1
  | .lit i (some ds), _ => (natStr i).length + ds.length + 2
  | .bin op l r, ctx =>
    let inner := tcost l (leftCtx op) + 1 + tcost r (rightCtx op)
    if opLevel op < ctx then inner + 2 else inner

/-- Node count of a tree. -/
def sizeT : Arith → ℕ
  | .lit _ _ => 1
  | .bin _ l r => 1 + sizeT l + sizeT r

/-- Sufficient parser fuel for a rendered tree at the four grammar
levels, as the tuple `(sum level, term level, unary level, postfix
level)`. -/
def pcA : Arith → ℕ × ℕ × ℕ × ℕ
  | .lit _ _ => (9, 7, 5, 3)
  | .bin op l r =>
    let pl := pcA l
    let pr := pcA r
    match op with
    | .add => (pl.1 + 1 + pr.2.1, 7 + pl.1 + pr.2.1, 5 + pl.1 + pr.2.1, 4 + pl.1 + pr.2.1)
    | .sub => (pl.1 + 1 + pr.2.1, 7 + pl.1 + pr.2.1, 5 + pl.1 + pr.2.1, 4 + pl.1 + pr.2.1)
    | .mul => (pl.2.1 + pr.2.2.1 + 3, pl.2.1 + 1 + pr.2.2.1, pl.2.1 + pr.2.2.1 + 7,
        pl.2.1 + pr.2.2.1 + 6)
    | .div => (pl.2.1 + pr.2.2.1 + 3, pl.2.1 + 1 + pr.2.2.1, pl.2.1 + pr.2.2.1 + 7,
        pl.2.1 + pr.2.2.1 + 6)
    | .pow => (6 + pl.2.2.2 + pr.2.2.1, 4 + pl.2.2.2 + pr.2.2.1, 2 + pl.2.2.2 + pr.2.2.1,
        9 + pl.2.2.2 + pr.2.2.1)

/-- Parser fuel at the sum level. -/
def pc0 (t : Arith) : ℕ := (pcA t).1

/-- Parser fuel at the term level. -/
def pc1 (t : Arith) : ℕ := (pcA t).2.1

/-- Parser fuel at the unary level. -/
def pc2 (t : Arith) : ℕ := (pcA t).2.2.1

/-- Parser fuel at the postfix level. -/
def pc4 (t : Arith) : ℕ := (pcA t).2.2.2

/-- A character the tokenizer treats as part of a number: not an
identifier start, and a decimal digit. -/
def goodDigit (c : Char) : Bool := !identStart c && c.isDigit

/-- Digit characters are good digits. -/
theorem digitChar_good {d : ℕ} (hd : d < 10) : goodDigit (digitChar d) = true := by
  interval_cases d <;> rfl

/-- Reading back a digit character gives the digit. -/
theorem digitVal_digitChar {d : ℕ} (hd : d < 10) : digitVal (digitChar d) = d := by
  interval_cases d <;> rfl

/-- The decimal rendering accumulator appends to its accumulator. -/
theorem natStrGo_acc (f : ℕ) : ∀ n acc, natStrGo f n acc = natStrGo f n [] ++ acc := by
  induction f with
  | zero =>
    intro n acc
    rfl
  | succ f ih =>
    intro n acc
    by_cases hn : n < 10
    · simp [natStrGo, hn]
    · simp only [natStrGo, if_neg hn]
      rw [ih (n / 10) (digitChar (n % 10) :: acc), ih (n / 10) [digitChar (n % 10)]]
      simp [List.append_assoc]

/-- The decimal rendering of `n` starts with a digit character. -/
theorem natStrGo_head (f : ℕ) : ∀ n, n ≤ f →
    ∃ d rest, d < 10 ∧ natStrGo f n [] = digitChar d :: rest := by
  induction f with
  | zero =>
    intro n hn
    exact ⟨n, [], by omega, rfl⟩
  | succ f ih =>
    intro n hn
    by_cases h10 : n < 10
    · exact ⟨n, [], h10, by simp [natStrGo, h10]⟩
    · have hdiv : n / 10 ≤ f := by
        have := Nat.div_lt_self (by omega : 0 < n) (by omega : 1 < 10)
        omega
      obtain ⟨d, rest, hd, heq⟩ := ih (n / 10) hdiv
      refine ⟨d, rest ++ [digitChar (n % 10)], hd, ?_⟩
      simp only [natStrGo, if_neg h10]
      rw [natStrGo_acc, heq]
      rfl

/-- Every character of the decimal rendering is a good digit. -/
theorem natStrGo_good (f : ℕ) : ∀ n, n ≤ f →
    (natStrGo f n []).all goodDigit = true := by
  induction f with
  | zero =>
    intro n hn
    have hn0 : n = 0 := by omega
    subst hn0
    rfl
  | succ f ih =>
    intro n hn
    by_cases h10 : n < 10
    · simp [natStrGo, h10, List.all_cons, digitChar_good h10]
    · have hdiv : n / 10 ≤ f := by
        have := Nat.div_lt_self (by omega : 0 < n) (by omega : 1 < 10)
        omega
      simp only [natStrGo, if_neg h10]
      rw [natStrGo_acc]
      rw [List.all_append]
      simp [ih (n / 10) hdiv, List.all_cons, digitChar_good (Nat.mod_lt n (by omega))]

/-- Folding the decimal digits of `n` back into a number recovers `n`
(shifted past any previous accumulation). -/
theorem natStrGo_fold (f : ℕ) : ∀ n, n ≤ f → ∀ a : ℕ,
    (natStrGo f n []).foldl (fun a c => 10 * a + digitVal c) a =
      a * 10 ^ (natStrGo f n []).length + n := by
  induction f with
  | zero =>
    intro n hn a
    have hn0 : n = 0 := by omega
    subst hn0
    simp [natStrGo, List.foldl, digitVal, digitChar]
    omega
  | succ f ih =>
    intro n hn a
    by_cases h10 : n < 10
    · simp [natStrGo, h10, List.foldl, digitVal_digitChar h10]
      omega
    · have hdiv : n / 10 ≤ f := by
        have := Nat.div_lt_self (by omega : 0 < n) (by omega : 1 < 10)
        omega
      simp only [natStrGo, if_neg h10]
      rw [natStrGo_acc]
      rw [List.foldl_append, List.length_append]
      simp only [List.foldl, List.length]
      rw [ih (n / 10) hdiv a]
      rw [digitVal_digitChar (Nat.mod_lt n (by omega))]
      have hpow : 10 ^ ((natStrGo f (n / 10) []).length + 1) =
          10 ^ (natStrGo f (n / 10) []).length * 10 := by
        rw [pow_succ]
      rw [hpow]
      have hmod : 10 * (n / 10) + n % 10 = n := by omega
      ring_nf
      omega

/-- The rendering of a natural number starts with a digit character. -/
theorem natStr_head (n : ℕ) :
    ∃ d rest, d < 10 ∧ natStr n = digitChar d :: rest :=
  natStrGo_head n n le_rfl

/-- Every character of a rendered natural number is a good digit. -/
theorem natStr_good (n : ℕ) : (natStr n).all goodDigit = true :=
  natStrGo_good n n le_rfl

/-- Folding the rendered digits of `n` recovers `n`. -/
theorem natStr_fold (n : ℕ) :
    (natStr n).foldl (fun a c => 10 * a + digitVal c) 0 = n := by
  have h := natStrGo_fold n n le_rfl 0
  simpa using h

/-- Followers after which a pending number token flushes correctly: end
of text, or one of the five characters the renderer can emit next. -/
def bdry (bs : List Char) : Prop :=
  bs = [] ∨ ∃ c bs2, bs = c :: bs2 ∧
    (c = ')' ∨ c = '+' ∨ c = '-' ∨ c = '*' ∨ c = '/')

/-- The tokenizer absorbs a run of digits into the integer state. -/
theorem tokA_intSeg (ds : List Char) : ∀ (v : ℕ) (bs : List Char) (f : ℕ),
    ds.all goodDigit = true →
    tokA (ds.length + f) (.intSt v) (ds ++ bs) =
      tokA f (.intSt (ds.foldl (fun a c => 10 * a + digitVal c) v)) bs := by
  induction ds with
  | nil =>
    intro v bs f _
    simp
  | cons c cs ih =>
    intro v bs f hall
    simp only [List.all_cons, Bool.and_eq_true] at hall
    obtain ⟨hc, hcs⟩ := hall
    have hdig : c.isDigit = true := by
      simp only [goodDigit, Bool.and_eq_true, Bool.not_eq_true'] at hc
      exact hc.2
    have hlen : (c :: cs).length + f = (cs.length + f) + 1 := by
      simp only [List.length_cons]
      omega
    rw [hlen]
    have hstep : tokA ((cs.length + f) + 1) (.intSt v) ((c :: cs) ++ bs)
        = tokA (cs.length + f) (.intSt (10 * v + digitVal c)) (cs ++ bs) := by
      show tokA ((cs.length + f) + 1) (.intSt v) (c :: (cs ++ bs)) = _
      simp only [tokA]
      rw [if_pos hdig]
    rw [hstep, ih (10 * v + digitVal c) bs f hcs]
    rfl

/-- The tokenizer absorbs a run of digits into the fraction state. -/
theorem tokA_fracSeg (ds : List Char) : ∀ (i fn fl : ℕ) (bs : List Char) (f : ℕ),
    ds.all goodDigit = true →
    tokA (ds.length + f) (.fracSt i fn fl) (ds ++ bs) =
      tokA f (.fracSt i (ds.foldl (fun a c => 10 * a + digitVal c) fn)
        (fl + ds.length)) bs := by
  induction ds with
  | nil =>
    intro i fn fl bs f _
    simp
  | cons c cs ih =>
    intro i fn fl bs f hall
    simp only [List.all_cons, Bool.and_eq_true] at hall
    obtain ⟨hc, hcs⟩ := hall
    have hdig : c.isDigit = true := by
      simp only [goodDigit, Bool.and_eq_true, Bool.not_eq_true'] at hc
      exact hc.2
    have hlen : (c :: cs).length + f = (cs.length + f) + 1 := by
      simp only [List.length_cons]
      omega
    rw [hlen]
    have hstep : tokA ((cs.length + f) + 1) (.fracSt i fn fl) ((c :: cs) ++ bs)
        = tokA (cs.length + f) (.fracSt i (10 * fn + digitVal c) (fl + 1)) (cs ++ bs) := by
      show tokA ((cs.length + f) + 1) (.fracSt i fn fl) (c :: (cs ++ bs)) = _
      simp only [tokA]
      rw [if_pos hdig]
    rw [hstep, ih i (10 * fn + digitVal c) (fl + 1) bs f hcs]
    have harith : (fl + 1) + cs.length = fl + (c :: cs).length := by
      simp only [List.length_cons]
      omega
    rw [harith]
    rfl

/-- A pending integer token flushes at a follower boundary. -/
theorem tokA_intFlush (v : ℕ) (bs : List Char) (f : ℕ) (ts : List Tok)
    (hb : bdry bs) (hok : tokA f .top bs = .ok ts) :
    tokA (f + 1) (.intSt v) bs = .ok (Tok.num (.int v) :: ts) := by
  rcases hb with rfl | ⟨c, bs2, rfl, hc⟩
  · cases f with
    | zero => simp [tokA] at hok
    | succ g =>
      have h2 : (Except.ok [] : Except PyErr (List Tok)) = .ok ts := hok
      injection h2 with h3
      rw [← h3]
      rfl
  · rcases hc with rfl | rfl | rfl | rfl | rfl
    all_goals
      show (tokA f .top _).map (Tok.num (.int v) :: ·) = _
    all_goals
      rw [hok]
      rfl

/-- A pending float token flushes at a follower boundary. -/
theorem tokA_fracFlush (i fn fl : ℕ) (bs : List Char) (f : ℕ) (ts : List Tok)
    (hb : bdry bs) (hok : tokA f .top bs = .ok ts) :
    tokA (f + 1) (.fracSt i fn fl) bs =
      .ok (Tok.num (.float (fracVal i fn fl)) :: ts) := by
  rcases hb with rfl | ⟨c, bs2, rfl, hc⟩
  · cases f with
    | zero => simp [tokA] at hok
    | succ g =>
      have h2 : (Except.ok [] : Except PyErr (List Tok)) = .ok ts := hok
      injection h2 with h3
      rw [← h3]
      rfl
  · rcases hc with rfl | rfl | rfl | rfl | rfl
    all_goals
      show (tokA f .top _).map (Tok.num (.float (fracVal i fn fl)) :: ·) = _
    all_goals
      rw [hok]
      rfl

/-- One tokenizer step for `+`. -/
theorem tokA_plusStep (f : ℕ) (xs : List Char) :
    tokA (f + 1) .top ('+' :: xs) = (tokA f .top xs).map (Tok.plus :: ·) := rfl

/-- One tokenizer step for `-`. -/
theorem tokA_minusStep (f : ℕ) (xs : List Char) :
    tokA (f + 1) .top ('-' :: xs) = (tokA f .top xs).map (Tok.minus :: ·) := rfl

/-- One tokenizer step for `/`. -/
theorem tokA_slashStep (f : ℕ) (xs : List Char) :
    tokA (f + 1) .top ('/' :: xs) = (tokA f .top xs).map (Tok.slash :: ·) := rfl

/-- One tokenizer step for `(`. -/
theorem tokA_lparenStep (f : ℕ) (xs : List Char) :
    tokA (f + 1) .top ('(' :: xs) = (tokA f .top xs).map (Tok.lparen :: ·) := rfl

/-- One tokenizer step for `)`. -/
theorem tokA_rparenStep (f : ℕ) (xs : List Char) :
    tokA (f + 1) .top (')' :: xs) = (tokA f .top xs).map (Tok.rparen :: ·) := rfl

/-- One tokenizer step for `**` (two characters, one step). -/
theorem tokA_dstarStep (f : ℕ) (xs : List Char) :
    tokA (f + 1) .top ('*' :: '*' :: xs) = (tokA f .top xs).map (Tok.dstar :: ·) := rfl

/-- One tokenizer step for a single `*` whose follower is a parenthesis
or a digit (so it is not part of `**`). -/
theorem tokA_starStep (f : ℕ) (c : Char) (xs : List Char)
    (hc : c = '(' ∨ ∃ d : ℕ, d < 10 ∧ c = digitChar d) :
    tokA (f + 1) .top ('*' :: c :: xs) =
      (tokA f .top (c :: xs)).map (Tok.star :: ·) := by
  rcases hc with rfl | ⟨d, hd, rfl⟩
  · rfl
  · interval_cases d <;> rfl

/-- One tokenizer step from an integer literal into its fraction. -/
theorem tokA_dotStep (f i : ℕ) (xs : List Char) :
    tokA (f + 1) (.intSt i) ('.' :: xs) = tokA f (.fracSt i 0 0) xs := rfl

/-- The rendering of any tree starts with `(` or a digit character. -/
theorem renderArith_head (t : Arith) : ∀ ctx : ℕ,
    (∃ rest, renderArith t ctx = '(' :: rest) ∨
    (∃ d rest, d < 10 ∧ renderArith t ctx = digitChar d :: rest) := by
  induction t with
  | lit i frac =>
    intro ctx
    right
    obtain ⟨d, rest, hd, heq⟩ := natStr_head i
    have hshape : renderArith (.lit i frac) ctx =
        digitChar d :: (rest ++ (match frac with
          | none => []
          | some ds => '.' :: ds.map (fun d => digitChar d.val))) := by
      show natStr i ++ _ = _
      rw [heq]
      rfl
    exact ⟨d, _, hd, hshape⟩
  | bin op l r ihl ihr =>
    intro ctx
    by_cases h : opLevel op < ctx
    · left
      have hshape : renderArith (.bin op l r) ctx =
          '(' :: ((renderArith l (leftCtx op) ++ opChars op ++
            renderArith r (rightCtx op)) ++ [')']) := by
        simp only [renderArith]
        rw [if_pos h]
      exact ⟨_, hshape⟩
    · have hcore : renderArith (.bin op l r) ctx =
          renderArith l (leftCtx op) ++ opChars op ++ renderArith r (rightCtx op) := by
        simp only [renderArith]
        rw [if_neg h]
      rw [hcore]
      rcases ihl (leftCtx op) with ⟨rest, hrest⟩ | ⟨d, rest, hd, hrest⟩
      · left
        have hshape : renderArith l (leftCtx op) ++ opChars op ++
            renderArith r (rightCtx op) =
            '(' :: (rest ++ (opChars op ++ renderArith r (rightCtx op))) := by
          simp [hrest]
        exact ⟨_, hshape⟩
      · right
        have hshape : renderArith l (leftCtx op) ++ opChars op ++
            renderArith r (rightCtx op) =
            digitChar d :: (rest ++ (opChars op ++ renderArith r (rightCtx op))) := by
          simp [hrest]
        exact ⟨d, _, hd, hshape⟩

/-- An integer-literal run: digits then a boundary flush. -/
theorem tokA_natRun (i : ℕ) (bs : List Char) (f : ℕ) (ts : List Tok)
    (hb : bdry bs) (hok : tokA f .top bs = .ok ts) :
    tokA ((natStr i).length + 1 + f) .top (natStr i ++ bs) =
      .ok (Tok.num (.int i) :: ts) := by
  obtain ⟨d, rest, hd, heq⟩ := natStr_head i
  have hgood := natStr_good i
  have hfold := natStr_fold i
  rw [heq] at hgood hfold ⊢
  simp only [List.all_cons, Bool.and_eq_true] at hgood
  obtain ⟨hcd, hrest⟩ := hgood
  have hstart : ¬ identStart (digitChar d) = true := by
    simp only [goodDigit, Bool.and_eq_true, Bool.not_eq_true'] at hcd
    simp [hcd.1]
  have hdig : (digitChar d).isDigit = true := by
    simp only [goodDigit, Bool.and_eq_true, Bool.not_eq_true'] at hcd
    exact hcd.2
  have hlen : (digitChar d :: rest).length + 1 + f = (rest.length + (f + 1)) + 1 := by
    simp only [List.length_cons]
    omega
  rw [hlen]
  have hstep : tokA ((rest.length + (f + 1)) + 1) .top ((digitChar d :: rest) ++ bs)
      = tokA (rest.length + (f + 1)) (.intSt (digitVal (digitChar d))) (rest ++ bs) := by
    show tokA ((rest.length + (f + 1)) + 1) .top (digitChar d :: (rest ++ bs)) = _
    simp only [tokA]
    rw [if_neg hstart, if_pos hdig]
  rw [hstep, tokA_intSeg rest (digitVal (digitChar d)) bs (f + 1) hrest]
  have hfold2 : rest.foldl (fun a c => 10 * a + digitVal c) (digitVal (digitChar d)) = i := by
    simp only [List.foldl] at hfold
    calc rest.foldl (fun a c => 10 * a + digitVal c) (digitVal (digitChar d))
        = rest.foldl (fun a c => 10 * a + digitVal c) (10 * 0 + digitVal (digitChar d)) := by
          norm_num
      _ = i := hfold
  rw [hfold2]
  exact tokA_intFlush i bs f ts hb hok

/-- Folding mapped digit characters equals folding the digits. -/
theorem foldl_map_digitChar (ds : List (Fin 10)) : ∀ a : ℕ,
    (ds.map (fun d => digitChar d.val)).foldl (fun a c => 10 * a + digitVal c) a =
      ds.foldl (fun a d => 10 * a + d.val) a := by
  induction ds with
  | nil =>
    intro a
    rfl
  | cons d ds ih =>
    intro a
    simp only [List.map, List.foldl]
    rw [digitVal_digitChar d.is_lt, ih]

/-- Mapped digit characters are all good digits. -/
theorem map_digitChar_good (ds : List (Fin 10)) :
    (ds.map (fun d => digitChar d.val)).all goodDigit = true := by
  induction ds with
  | nil => rfl
  | cons d ds ih =>
    simp only [List.map, List.all_cons, Bool.and_eq_true]
    exact ⟨digitChar_good d.is_lt, ih⟩

/-- A float-literal run: integer digits, the dot, fraction digits, then
a boundary flush. -/
theorem tokA_floatRun (i : ℕ) (ds : List (Fin 10)) (bs : List Char) (f : ℕ)
    (ts : List Tok) (hb : bdry bs) (hok : tokA f .top bs = .ok ts) :
    tokA ((natStr i).length + (ds.length + (f + 2))) .top
        (natStr i ++ ('.' :: ds.map (fun d => digitChar d.val)) ++ bs) =
      .ok (Tok.num (litVal i (some ds)) :: ts) := by
  obtain ⟨d, rest, hd, heq⟩ := natStr_head i
  have hgood := natStr_good i
  have hfold := natStr_fold i
  rw [heq] at hgood hfold ⊢
  simp only [List.all_cons, Bool.and_eq_true] at hgood
  obtain ⟨hcd, hrest⟩ := hgood
  have hstart : ¬ identStart (digitChar d) = true := by
    simp only [goodDigit, Bool.and_eq_true, Bool.not_eq_true'] at hcd
    simp [hcd.1]
  have hdig : (digitChar d).isDigit = true := by
    simp only [goodDigit, Bool.and_eq_true, Bool.not_eq_true'] at hcd
    exact hcd.2
  have hlen : (digitChar d :: rest).length + (ds.length + (f + 2)) =
      (rest.length + (ds.length + f + 2)) + 1 := by
    simp only [List.length_cons]
    omega
  rw [hlen]
  have hassoc : ((digitChar d :: rest) ++ ('.' :: ds.map (fun d => digitChar d.val))) ++ bs
      = digitChar d :: (rest ++ ('.' :: (ds.map (fun d => digitChar d.val) ++ bs))) := by
    simp [List.append_assoc]
  rw [hassoc]
  have hstep : tokA ((rest.length + (ds.length + f + 2)) + 1) .top
        (digitChar d :: (rest ++ ('.' :: (ds.map (fun d => digitChar d.val) ++ bs))))
      = tokA (rest.length + (ds.length + f + 2)) (.intSt (digitVal (digitChar d)))
        (rest ++ ('.' :: (ds.map (fun d => digitChar d.val) ++ bs))) := by
    simp only [tokA]
    rw [if_neg hstart, if_pos hdig]
  rw [hstep, tokA_intSeg rest (digitVal (digitChar d)) _ (ds.length + f + 2) hrest]
  have hfold2 : rest.foldl (fun a c => 10 * a + digitVal c) (digitVal (digitChar d)) = i := by
    simp only [List.foldl] at hfold
    calc rest.foldl (fun a c => 10 * a + digitVal c) (digitVal (digitChar d))
        = rest.foldl (fun a c => 10 * a + digitVal c) (10 * 0 + digitVal (digitChar d)) := by
          norm_num
      _ = i := hfold
  rw [hfold2]
  have harith : ds.length + f + 2 = (ds.length + (f + 1)) + 1 := by omega
  rw [harith, tokA_dotStep]
  have hlenmap : ds.length + (f + 1) =
      (ds.map (fun d => digitChar d.val)).length + (f + 1) := by simp
  rw [hlenmap, tokA_fracSeg (ds.map (fun d => digitChar d.val)) i 0 0
    bs (f + 1) (map_digitChar_good ds)]
  rw [foldl_map_digitChar]
  have hlen2 : (ds.map (fun d => digitChar d.val)).length = ds.length := by simp
  rw [hlen2]
  have hfl : (0 : ℕ) + ds.length = ds.length := by omega
  rw [hfl]
  exact tokA_fracFlush i (digitsFold ds) ds.length bs f ts hb hok

/-- One tokenizer step for `*` whose follower starts with the rendering
of a tree (never another `*`). -/
theorem tokA_starStep2 (f : ℕ) (ys bs : List Char)
    (h : (∃ rest, ys = '(' :: rest) ∨ (∃ d rest, d < 10 ∧ ys = digitChar d :: rest)) :
    tokA (f + 1) .top ('*' :: (ys ++ bs)) =
      (tokA f .top (ys ++ bs)).map (Tok.star :: ·) := by
  rcases h with ⟨rest, rfl⟩ | ⟨d, rest, hd, rfl⟩
  · rfl
  · show tokA (f + 1) .top ('*' :: digitChar d :: (rest ++ bs)) = _
    interval_cases d <;> rfl

/-- Text beginning with an operator spelling is a flush boundary. -/
theorem bdry_op (op : BOp) (xs : List Char) : bdry (opChars op ++ xs) := by
  cases op with
  | add => exact Or.inr ⟨'+', xs, rfl, by tauto⟩
  | sub => exact Or.inr ⟨'-', xs, rfl, by tauto⟩
  | mul => exact Or.inr ⟨'*', xs, rfl, by tauto⟩
  | div => exact Or.inr ⟨'/', xs, rfl, by tauto⟩
  | pow => exact Or.inr ⟨'*', '*' :: xs, rfl, by tauto⟩

/-- Tokenizing the rendering of a tree yields its token list, given any
follower text at a flush boundary that itself tokenizes. -/
theorem tokSeg (t : Arith) : ∀ (ctx : ℕ) (bs : List Char) (f : ℕ) (ts : List Tok),
    bdry bs → tokA f .top bs = .ok ts →
    tokA (tcost t ctx + f) .top (renderArith t ctx ++ bs) =
      .ok (toksArith t ctx ++ ts) := by
  induction t with
  | lit i frac =>
    intro ctx bs f ts hb hok
    cases frac with
    | none =>
      have hr : renderArith (.lit i none) ctx = natStr i := by
        show natStr i ++ [] = _
        simp
      rw [hr]
      show tokA ((natStr i).length + 1 + f) .top (natStr i ++ bs) = _
      exact tokA_natRun i bs f ts hb hok
    | some ds =>
      have hr : renderArith (.lit i (some ds)) ctx =
          natStr i ++ ('.' :: ds.map (fun d => digitChar d.val)) := rfl
      rw [hr, List.append_assoc]
      show tokA ((natStr i).length + ds.length + 2 + f) .top _ = _
      have harith : (natStr i).length + ds.length + 2 + f =
          (natStr i).length + (ds.length + (f + 2)) := by omega
      rw [harith]
      have h2 := tokA_floatRun i ds bs f ts hb hok
      rw [List.append_assoc] at h2
      exact h2
  | bin op l r ihl ihr =>
    intro ctx bs f ts hb hok
    have hcore : ∀ (bs2 : List Char) (f2 : ℕ) (ts2 : List Tok), bdry bs2 →
        tokA f2 .top bs2 = .ok ts2 →
        tokA ((tcost l (leftCtx op) + 1 + tcost r (rightCtx op)) + f2) .top
          ((renderArith l (leftCtx op) ++ opChars op ++
            renderArith r (rightCtx op)) ++ bs2) =
        .ok ((toksArith l (leftCtx op) ++ opTok op ::
          toksArith r (rightCtx op)) ++ ts2) := by
      intro bs2 f2 ts2 hb2 hok2
      have hr := ihr (rightCtx op) bs2 f2 ts2 hb2 hok2
      have hop : tokA ((tcost r (rightCtx op) + f2) + 1) .top
          (opChars op ++ (renderArith r (rightCtx op) ++ bs2)) =
          .ok (opTok op :: (toksArith r (rightCtx op) ++ ts2)) := by
        cases op with
        | add =>
          show tokA _ .top ('+' :: (renderArith r (rightCtx .add) ++ bs2)) = _
          rw [tokA_plusStep, hr]
          rfl
        | sub =>
          show tokA _ .top ('-' :: (renderArith r (rightCtx .sub) ++ bs2)) = _
          rw [tokA_minusStep, hr]
          rfl
        | div =>
          show tokA _ .top ('/' :: (renderArith r (rightCtx .div) ++ bs2)) = _
          rw [tokA_slashStep, hr]
          rfl
        | pow =>
          show tokA _ .top ('*' :: '*' :: (renderArith r (rightCtx .pow) ++ bs2)) = _
          rw [tokA_dstarStep, hr]
          rfl
        | mul =>
          show tokA ((tcost r (rightCtx .mul) + f2) + 1) .top
            ('*' :: (renderArith r (rightCtx .mul) ++ bs2)) = _
          rw [tokA_starStep2 (tcost r (rightCtx .mul) + f2)
            (renderArith r (rightCtx .mul)) bs2 (renderArith_head r (rightCtx .mul)), hr]
          rfl
      have hl := ihl (leftCtx op) (opChars op ++ (renderArith r (rightCtx op) ++ bs2))
        ((tcost r (rightCtx op) + f2) + 1)
        (opTok op :: (toksArith r (rightCtx op) ++ ts2))
        (bdry_op op _) hop
      have e1 : (tcost l (leftCtx op) + 1 + tcost r (rightCtx op)) + f2 =
          tcost l (leftCtx op) + ((tcost r (rightCtx op) + f2) + 1) := by omega
      rw [e1]
      simp only [List.append_assoc, List.cons_append]
      simp only [List.append_assoc, List.cons_append] at hl
      exact hl
    by_cases hp : opLevel op < ctx
    · have hr2 : renderArith (.bin op l r) ctx =
          '(' :: ((renderArith l (leftCtx op) ++ opChars op ++
            renderArith r (rightCtx op)) ++ [')']) := by
        simp only [renderArith]
        rw [if_pos hp]
      have ht2 : toksArith (.bin op l r) ctx =
          Tok.lparen :: ((toksArith l (leftCtx op) ++ opTok op ::
            toksArith r (rightCtx op)) ++ [Tok.rparen]) := by
        simp only [toksArith]
        rw [if_pos hp]
      have hc2 : tcost (.bin op l r) ctx =
          (tcost l (leftCtx op) + 1 + tcost r (rightCtx op)) + 2 := by
        simp only [tcost]
        rw [if_pos hp]
      rw [hr2, ht2, hc2]
      have hrp : tokA (f + 1) .top (')' :: bs) = .ok (Tok.rparen :: ts) := by
        rw [tokA_rparenStep, hok]
        rfl
      have hcore2 := hcore (')' :: bs) (f + 1) (Tok.rparen :: ts)
        (Or.inr ⟨')', bs, rfl, Or.inl rfl⟩) hrp
      have e1 : ((tcost l (leftCtx op) + 1 + tcost r (rightCtx op)) + 2) + f =
          ((tcost l (leftCtx op) + 1 + tcost r (rightCtx op)) + (f + 1)) + 1 := by
        omega
      rw [e1]
      have hshape : ('(' :: ((renderArith l (leftCtx op) ++ opChars op ++
            renderArith r (rightCtx op)) ++ [')'])) ++ bs =
          '(' :: ((renderArith l (leftCtx op) ++ opChars op ++
            renderArith r (rightCtx op)) ++ (')' :: bs)) := by
        simp
      rw [hshape, tokA_lparenStep, hcore2]
      show Except.ok (Tok.lparen :: ((toksArith l (leftCtx op) ++ opTok op ::
        toksArith r (rightCtx op)) ++ Tok.rparen :: ts)) = _
      simp [List.append_assoc]
    · have hr2 : renderArith (.bin op l r) ctx =
          renderArith l (leftCtx op) ++ opChars op ++ renderArith r (rightCtx op) := by
        simp only [renderArith]
        rw [if_neg hp]
      have ht2 : toksArith (.bin op l r) ctx =
          toksArith l (leftCtx op) ++ opTok op :: toksArith r (rightCtx op) := by
        simp only [toksArith]
        rw [if_neg hp]
      have hc2 : tcost (.bin op l r) ctx =
          tcost l (leftCtx op) + 1 + tcost r (rightCtx op) := by
        simp only [tcost]
        rw [if_neg hp]
      rw [hr2, ht2, hc2]
      exact hcore bs f ts hb hok

/-- Token lists at which the sum-level loop exits. -/
def stopT (ts : List Tok) : Prop := ts = [] ∨ ∃ ts2, ts = Tok.rparen :: ts2

/-- Token lists at which the term-level loop exits. -/
def stop1 (ts : List Tok) : Prop :=
  stopT ts ∨ (∃ ts2, ts = Tok.plus :: ts2) ∨ (∃ ts2, ts = Tok.minus :: ts2)

/-- Token lists at which a unary-level parse ends. -/
def stop2 (ts : List Tok) : Prop :=
  stop1 ts ∨ (∃ ts2, ts = Tok.star :: ts2) ∨ (∃ ts2, ts = Tok.slash :: ts2)

/-- Token lists at which the postfix loop exits. -/
def stop4 (ts : List Tok) : Prop :=
  stop2 ts ∨ ∃ ts2, ts = Tok.dstar :: ts2

/-- The sum loop exits at a sum stop. -/
theorem parse_exprLoop_exit (f : ℕ) (acc : PExpr) (ts : List Tok) (h : stopT ts) :
    parseToks (f + 1) (.exprLoop acc) ts = .ok (acc, ts) := by
  rcases h with rfl | ⟨ts2, rfl⟩ <;> rfl

/-- The term loop exits at a term stop. -/
theorem parse_termLoop_exit (f : ℕ) (acc : PExpr) (ts : List Tok) (h : stop1 ts) :
    parseToks (f + 1) (.termLoop acc) ts = .ok (acc, ts) := by
  rcases h with (rfl | ⟨ts2, rfl⟩) | ⟨ts2, rfl⟩ | ⟨ts2, rfl⟩ <;> rfl

/-- The postfix loop exits at a postfix stop. -/
theorem parse_postLoop_exit (f : ℕ) (acc : PExpr) (ts : List Tok) (h : stop4 ts) :
    parseToks (f + 1) (.postLoop acc) ts = .ok (acc, ts) := by
  rcases h with (((rfl | ⟨ts2, rfl⟩) | ⟨ts2, rfl⟩ | ⟨ts2, rfl⟩) | ⟨ts2, rfl⟩ |
    ⟨ts2, rfl⟩) | ⟨ts2, rfl⟩ <;> rfl

/-- The unary level passes straight to the power level when the next
token is a literal or an opening parenthesis. -/
theorem parse_unary_pass (f : ℕ) (toks : List Tok)
    (h : (∃ v rest, toks = Tok.num v :: rest) ∨ (∃ rest, toks = Tok.lparen :: rest)) :
    parseToks (f + 1) .unary toks = parseToks f .power toks := by
  rcases h with ⟨v, rest, rfl⟩ | ⟨rest, rfl⟩ <;> rfl

/-- Is the root an additive operator? -/
def isASb : Arith → Bool
  | .bin .add _ _ => true
  | .bin .sub _ _ => true
  | _ => false

/-- Is the root a multiplicative operator? -/
def isMDb : Arith → Bool
  | .bin .mul _ _ => true
  | .bin .div _ _ => true
  | _ => false

/-- Peel the left-nested additive spine of a tree. -/
def spineE : Arith → Arith × List (BOp × Arith)
  | .bin .add l r => ((spineE l).1, (spineE l).2 ++ [(.add, r)])
  | .bin .sub l r => ((spineE l).1, (spineE l).2 ++ [(.sub, r)])
  | t => (t, [])

/-- Peel the left-nested multiplicative spine of a tree. -/
def spineT : Arith → Arith × List (BOp × Arith)
  | .bin .mul l r => ((spineT l).1, (spineT l).2 ++ [(.mul, r)])
  | .bin .div l r => ((spineT l).1, (spineT l).2 ++ [(.div, r)])
  | t => (t, [])

/-- Token flattening of an additive spine suffix. -/
def sufToksE : List (BOp × Arith) → List Tok
  | [] => []
  | p :: s => opTok p.1 :: (toksArith p.2 1 ++ sufToksE s)

/-- Token flattening of a multiplicative spine suffix. -/
def sufToksT : List (BOp × Arith) → List Tok
  | [] => []
  | p :: s => opTok p.1 :: (toksArith p.2 2 ++ sufToksT s)

/-- Parser fuel for an additive spine suffix. -/
def pcLE : List (BOp × Arith) → ℕ
  | [] => 2
  | p :: s => 1 + pc1 p.2 + pcLE s

/-- Parser fuel for a multiplicative spine suffix. -/
def pcLT : List (BOp × Arith) → ℕ
  | [] => 2
  | p :: s => 1 + pc2 p.2 + pcLT s

/-- Appending one element to an additive suffix. -/
theorem sufToksE_append (s : List (BOp × Arith)) (p : BOp × Arith) :
    sufToksE (s ++ [p]) = sufToksE s ++ (opTok p.1 :: toksArith p.2 1) := by
  induction s with
  | nil => simp [sufToksE]
  | cons q s ih => simp [sufToksE, ih]

/-- Appending one element to a multiplicative suffix. -/
theorem sufToksT_append (s : List (BOp × Arith)) (p : BOp × Arith) :
    sufToksT (s ++ [p]) = sufToksT s ++ (opTok p.1 :: toksArith p.2 2) := by
  induction s with
  | nil => simp [sufToksT]
  | cons q s ih => simp [sufToksT, ih]

/-- Fuel of an extended additive suffix. -/
theorem pcLE_append (s : List (BOp × Arith)) (op : BOp) (m : Arith) :
    pcLE (s ++ [(op, m)]) = pcLE s + 1 + pc1 m := by
  induction s with
  | nil => simp [pcLE]; omega
  | cons q s ih => simp [pcLE, ih]; omega

/-- Fuel of an extended multiplicative suffix. -/
theorem pcLT_append (s : List (BOp × Arith)) (op : BOp) (m : Arith) :
    pcLT (s ++ [(op, m)]) = pcLT s + 1 + pc2 m := by
  induction s with
  | nil => simp [pcLT]; omega
  | cons q s ih => simp [pcLT, ih]; omega

/-- A tree that is not an additive node has a trivial additive spine. -/
theorem spineE_eq_self (t : Arith) (h : isASb t = false) : spineE t = (t, []) := by
  cases t with
  | lit i frac => rfl
  | bin op l r => cases op <;> first | rfl | simp [isASb] at h

/-- A tree that is not a multiplicative node has a trivial term spine. -/
theorem spineT_eq_self (t : Arith) (h : isMDb t = false) : spineT t = (t, []) := by
  cases t with
  | lit i frac => rfl
  | bin op l r => cases op <;> first | rfl | simp [isMDb] at h

/-- The head of an additive spine is not an additive node. -/
theorem spineE_head_notAS (t : Arith) : isASb (spineE t).1 = false := by
  induction t with
  | lit i frac => rfl
  | bin op l r ihl ihr => cases op <;> simp [spineE, isASb] <;> exact ihl

/-- The head of a multiplicative spine is not a multiplicative node. -/
theorem spineT_head_notMD (t : Arith) : isMDb (spineT t).1 = false := by
  induction t with
  | lit i frac => rfl
  | bin op l r ihl ihr => cases op <;> simp [spineT, isMDb] <;> exact ihl

/-- Every operator in an additive spine suffix is `+` or `-`. -/
theorem spineE_ops (t : Arith) : ∀ p ∈ (spineE t).2, p.1 = BOp.add ∨ p.1 = BOp.sub := by
  induction t with
  | lit i frac => intro p hp; simp [spineE] at hp
  | bin op l r ihl ihr =>
    intro p hp
    cases op with
    | add =>
      simp only [spineE, List.mem_append, List.mem_singleton] at hp
      rcases hp with hp | rfl
      · exact ihl p hp
      · left; rfl
    | sub =>
      simp only [spineE, List.mem_append, List.mem_singleton] at hp
      rcases hp with hp | rfl
      · exact ihl p hp
      · right; rfl
    | mul => simp [spineE] at hp
    | div => simp [spineE] at hp
    | pow => simp [spineE] at hp

/-- Spine operators of a multiplicative spine are `*` or `/`. -/
theorem spineT_ops (t : Arith) : ∀ p ∈ (spineT t).2, p.1 = BOp.mul ∨ p.1 = BOp.div := by
  induction t with
  | lit i frac => intro p hp; simp [spineT] at hp
  | bin op l r ihl ihr =>
    intro p hp
    cases op with
    | mul =>
      simp only [spineT, List.mem_append, List.mem_singleton] at hp
      rcases hp with hp | rfl
      · exact ihl p hp
      · left; rfl
    | div =>
      simp only [spineT, List.mem_append, List.mem_singleton] at hp
      rcases hp with hp | rfl
      · exact ihl p hp
      · right; rfl
    | add => simp [spineT] at hp
    | sub => simp [spineT] at hp
    | pow => simp [spineT] at hp

/-- A non-additive tree renders to the same tokens at levels 0 and 1. -/
theorem toks01 (t : Arith) (h : isASb t = false) : toksArith t 0 = toksArith t 1 := by
  cases t with
  | lit i frac => rfl
  | bin op l r => cases op <;> first | rfl | simp [isASb] at h

/-- A non-multiplicative tree renders to the same tokens at levels 1 and 2. -/
theorem toks12 (t : Arith) (h : isMDb t = false) : toksArith t 1 = toksArith t 2 := by
  cases t with
  | lit i frac => rfl
  | bin op l r => cases op <;> first | rfl | simp [isMDb] at h

/-- The token list at level 0 decomposes along the additive spine. -/
theorem spineE_toks (t : Arith) :
    toksArith t 0 = toksArith (spineE t).1 1 ++ sufToksE (spineE t).2 := by
  induction t with
  | lit i frac => rfl
  | bin op l r ihl ihr =>
    cases op with
    | add =>
      show toksArith l 0 ++ Tok.plus :: toksArith r 1 = _
      rw [ihl]
      show _ = toksArith (spineE l).1 1 ++ sufToksE ((spineE l).2 ++ [(BOp.add, r)])
      rw [sufToksE_append]
      simp [List.append_assoc, opTok]
    | sub =>
      show toksArith l 0 ++ Tok.minus :: toksArith r 1 = _
      rw [ihl]
      show _ = toksArith (spineE l).1 1 ++ sufToksE ((spineE l).2 ++ [(BOp.sub, r)])
      rw [sufToksE_append]
      simp [List.append_assoc, opTok]
    | mul =>
      show toksArith (.bin .mul l r) 0 = toksArith (.bin .mul l r) 1 ++ sufToksE []
      rw [toks01 _ (by rfl)]
      simp [sufToksE]
    | div =>
      show toksArith (.bin .div l r) 0 = toksArith (.bin .div l r) 1 ++ sufToksE []
      rw [toks01 _ (by rfl)]
      simp [sufToksE]
    | pow =>
      show toksArith (.bin .pow l r) 0 = toksArith (.bin .pow l r) 1 ++ sufToksE []
      rw [toks01 _ (by rfl)]
      simp [sufToksE]

/-- The token list at level 1 decomposes along the multiplicative spine. -/
theorem spineT_toks (t : Arith) :
    toksArith t 1 = toksArith (spineT t).1 2 ++ sufToksT (spineT t).2 := by
  induction t with
  | lit i frac => rfl
  | bin op l r ihl ihr =>
    cases op with
    | mul =>
      show toksArith l 1 ++ Tok.star :: toksArith r 2 = _
      rw [ihl]
      show _ = toksArith (spineT l).1 2 ++ sufToksT ((spineT l).2 ++ [(BOp.mul, r)])
      rw [sufToksT_append]
      simp [List.append_assoc, opTok]
    | div =>
      show toksArith l 1 ++ Tok.slash :: toksArith r 2 = _
      rw [ihl]
      show _ = toksArith (spineT l).1 2 ++ sufToksT ((spineT l).2 ++ [(BOp.div, r)])
      rw [sufToksT_append]
      simp [List.append_assoc, opTok]
    | add =>
      show toksArith (.bin .add l r) 1 = toksArith (.bin .add l r) 2 ++ sufToksT []
      rw [toks12 _ (by rfl)]
      simp [sufToksT]
    | sub =>
      show toksArith (.bin .sub l r) 1 = toksArith (.bin .sub l r) 2 ++ sufToksT []
      rw [toks12 _ (by rfl)]
      simp [sufToksT]
    | pow =>
      show toksArith (.bin .pow l r) 1 = toksArith (.bin .pow l r) 2 ++ sufToksT []
      rw [toks12 _ (by rfl)]
      simp [sufToksT]

/-- Folding the additive spine rebuilds the parsed form of the tree. -/
theorem spineE_conv (t : Arith) :
    (spineE t).2.foldl (fun a p => PExpr.binop p.1 a (toPExpr p.2))
      (toPExpr (spineE t).1) = toPExpr t := by
  induction t with
  | lit i frac => rfl
  | bin op l r ihl ihr =>
    cases op with
    | add =>
      show List.foldl (fun a p => PExpr.binop p.1 a (toPExpr p.2))
        (toPExpr (spineE l).1) ((spineE l).2 ++ [(BOp.add, r)]) = _
      rw [List.foldl_append, ihl]
      rfl
    | sub =>
      show List.foldl (fun a p => PExpr.binop p.1 a (toPExpr p.2))
        (toPExpr (spineE l).1) ((spineE l).2 ++ [(BOp.sub, r)]) = _
      rw [List.foldl_append, ihl]
      rfl
    | mul => rfl
    | div => rfl
    | pow => rfl

/-- Folding the multiplicative spine rebuilds the parsed form. -/
theorem spineT_conv (t : Arith) :
    (spineT t).2.foldl (fun a p => PExpr.binop p.1 a (toPExpr p.2))
      (toPExpr (spineT t).1) = toPExpr t := by
  induction t with
  | lit i frac => rfl
  | bin op l r ihl ihr =>
    cases op with
    | mul =>
      show List.foldl (fun a p => PExpr.binop p.1 a (toPExpr p.2))
        (toPExpr (spineT l).1) ((spineT l).2 ++ [(BOp.mul, r)]) = _
      rw [List.foldl_append, ihl]
      rfl
    | div =>
      show List.foldl (fun a p => PExpr.binop p.1 a (toPExpr p.2))
        (toPExpr (spineT l).1) ((spineT l).2 ++ [(BOp.div, r)]) = _
      rw [List.foldl_append, ihl]
      rfl
    | add => rfl
    | sub => rfl
    | pow => rfl

/-- Sum-level parser fuel decomposes along the additive spine. -/
theorem spineE_pc (t : Arith) :
    pc0 t = pc1 (spineE t).1 + pcLE (spineE t).2 := by
  induction t with
  | lit i frac => rfl
  | bin op l r ihl ihr =>
    cases op with
    | add =>
      show pc0 l + 1 + pc1 r = pc1 (spineE l).1 + pcLE ((spineE l).2 ++ [(.add, r)])
      rw [pcLE_append, ihl]
      omega
    | sub =>
      show pc0 l + 1 + pc1 r = pc1 (spineE l).1 + pcLE ((spineE l).2 ++ [(.sub, r)])
      rw [pcLE_append, ihl]
      omega
    | mul =>
      show pc1 l + pc2 r + 3 = (pc1 l + 1 + pc2 r) + pcLE []
      simp [pcLE]
      omega
    | div =>
      show pc1 l + pc2 r + 3 = (pc1 l + 1 + pc2 r) + pcLE []
      simp [pcLE]
      omega
    | pow =>
      show 6 + pc4 l + pc2 r = (4 + pc4 l + pc2 r) + pcLE []
      simp [pcLE]
      omega

/-- Term-level parser fuel decomposes along the multiplicative spine. -/
theorem spineT_pc (t : Arith) :
    pc1 t = pc2 (spineT t).1 + pcLT (spineT t).2 := by
  induction t with
  | lit i frac => rfl
  | bin op l r ihl ihr =>
    cases op with
    | mul =>
      show pc1 l + 1 + pc2 r = pc2 (spineT l).1 + pcLT ((spineT l).2 ++ [(.mul, r)])
      rw [pcLT_append, ihl]
      omega
    | div =>
      show pc1 l + 1 + pc2 r = pc2 (spineT l).1 + pcLT ((spineT l).2 ++ [(.div, r)])
      rw [pcLT_append, ihl]
      omega
    | add =>
      show 7 + pc0 l + pc1 r = (5 + pc0 l + pc1 r) + pcLT []
      simp [pcLT]
      omega
    | sub =>
      show 7 + pc0 l + pc1 r = (5 + pc0 l + pc1 r) + pcLT []
      simp [pcLT]
      omega
    | pow =>
      show 4 + pc4 l + pc2 r = (2 + pc4 l + pc2 r) + pcLT []
      simp [pcLT]
      omega

/-- Size bounds along the additive spine. -/
theorem spineE_size (t : Arith) :
    sizeT (spineE t).1 ≤ sizeT t ∧
    (isASb t = true → sizeT (spineE t).1 < sizeT t) ∧
    (∀ p ∈ (spineE t).2, sizeT p.2 < sizeT t) := by
  induction t with
  | lit i frac =>
    refine ⟨le_refl _, by simp [isASb], ?_⟩
    intro p hp
    simp [spineE] at hp
  | bin op l r ihl ihr =>
    cases op with
    | add =>
      refine ⟨?_, fun _ => ?_, ?_⟩
      · show sizeT (spineE l).1 ≤ sizeT (.bin .add l r)
        have := ihl.1
        simp [sizeT]
        omega
      · show sizeT (spineE l).1 < sizeT (.bin .add l r)
        have := ihl.1
        simp [sizeT]
        omega
      · intro p hp
        show sizeT p.2 < sizeT (.bin .add l r)
        simp only [spineE, List.mem_append, List.mem_singleton] at hp
        rcases hp with hp | rfl
        · have := ihl.2.2 p hp
          simp only [sizeT]
          omega
        · simp only [sizeT]
          omega
    | sub =>
      refine ⟨?_, fun _ => ?_, ?_⟩
      · show sizeT (spineE l).1 ≤ sizeT (.bin .sub l r)
        have := ihl.1
        simp [sizeT]
        omega
      · show sizeT (spineE l).1 < sizeT (.bin .sub l r)
        have := ihl.1
        simp [sizeT]
        omega
      · intro p hp
        show sizeT p.2 < sizeT (.bin .sub l r)
        simp only [spineE, List.mem_append, List.mem_singleton] at hp
        rcases hp with hp | rfl
        · have := ihl.2.2 p hp
          simp only [sizeT]
          omega
        · simp only [sizeT]
          omega
    | mul => exact ⟨le_refl _, by simp [isASb], by intro p hp; simp [spineE] at hp⟩
    | div => exact ⟨le_refl _, by simp [isASb], by intro p hp; simp [spineE] at hp⟩
    | pow => exact ⟨le_refl _, by simp [isASb], by intro p hp; simp [spineE] at hp⟩

/-- Size bounds along the multiplicative spine. -/
theorem spineT_size (t : Arith) :
    sizeT (spineT t).1 ≤ sizeT t ∧
    (isMDb t = true → sizeT (spineT t).1 < sizeT t) ∧
    (∀ p ∈ (spineT t).2, sizeT p.2 < sizeT t) := by
  induction t with
  | lit i frac =>
    refine ⟨le_refl _, by simp [isMDb], ?_⟩
    intro p hp
    simp [spineT] at hp
  | bin op l r ihl ihr =>
    cases op with
    | mul =>
      refine ⟨?_, fun _ => ?_, ?_⟩
      · show sizeT (spineT l).1 ≤ sizeT (.bin .mul l r)
        have := ihl.1
        simp [sizeT]
        omega
      · show sizeT (spineT l).1 < sizeT (.bin .mul l r)
        have := ihl.1
        simp [sizeT]
        omega
      · intro p hp
        show sizeT p.2 < sizeT (.bin .mul l r)
        simp only [spineT, List.mem_append, List.mem_singleton] at hp
        rcases hp with hp | rfl
        · have := ihl.2.2 p hp
          simp only [sizeT]
          omega
        · simp only [sizeT]
          omega
    | div =>
      refine ⟨?_, fun _ => ?_, ?_⟩
      · show sizeT (spineT l).1 ≤ sizeT (.bin .div l r)
        have := ihl.1
        simp [sizeT]
        omega
      · show sizeT (spineT l).1 < sizeT (.bin .div l r)
        have := ihl.1
        simp [sizeT]
        omega
      · intro p hp
        show sizeT p.2 < sizeT (.bin .div l r)
        simp only [spineT, List.mem_append, List.mem_singleton] at hp
        rcases hp with hp | rfl
        · have := ihl.2.2 p hp
          simp only [sizeT]
          omega
        · simp only [sizeT]
          omega
    | add => exact ⟨le_refl _, by simp [isMDb], by intro p hp; simp [spineT] at hp⟩
    | sub => exact ⟨le_refl _, by simp [isMDb], by intro p hp; simp [spineT] at hp⟩
    | pow => exact ⟨le_refl _, by simp [isMDb], by intro p hp; simp [spineT] at hp⟩

/-- Additive suffix fuel is at least the exit cost. -/
theorem pcLE_ge (s : List (BOp × Arith)) : 2 ≤ pcLE s := by
  cases s with
  | nil => simp [pcLE]
  | cons p s =>
    have := pcLE_ge s
    simp [pcLE]
    omega

/-- Multiplicative suffix fuel is at least the exit cost. -/
theorem pcLT_ge (s : List (BOp × Arith)) : 2 ≤ pcLT s := by
  cases s with
  | nil => simp [pcLT]
  | cons p s =>
    have := pcLT_ge s
    simp [pcLT]
    omega

/-- The token list of any tree starts with a literal or `(`. -/
theorem toksArith_head (t : Arith) : ∀ ctx : ℕ,
    (∃ v rest, toksArith t ctx = Tok.num v :: rest) ∨
    (∃ rest, toksArith t ctx = Tok.lparen :: rest) := by
  induction t with
  | lit i frac =>
    intro ctx
    left
    exact ⟨litVal i frac, [], rfl⟩
  | bin op l r ihl ihr =>
    intro ctx
    by_cases h : opLevel op < ctx
    · right
      have hshape : toksArith (.bin op l r) ctx =
          Tok.lparen :: ((toksArith l (leftCtx op) ++ opTok op ::
            toksArith r (rightCtx op)) ++ [Tok.rparen]) := by
        simp only [toksArith]
        rw [if_pos h]
      exact ⟨_, hshape⟩
    · have hcore : toksArith (.bin op l r) ctx =
          toksArith l (leftCtx op) ++ opTok op :: toksArith r (rightCtx op) := by
        simp only [toksArith]
        rw [if_neg h]
      rw [hcore]
      rcases ihl (leftCtx op) with ⟨v, rest, hrest⟩ | ⟨rest, hrest⟩
      · left
        have hshape : toksArith l (leftCtx op) ++ opTok op ::
            toksArith r (rightCtx op) =
            Tok.num v :: (rest ++ opTok op :: toksArith r (rightCtx op)) := by
          simp [hrest]
        exact ⟨v, _, hshape⟩
      · right
        have hshape : toksArith l (leftCtx op) ++ opTok op ::
            toksArith r (rightCtx op) =
            Tok.lparen :: (rest ++ opTok op :: toksArith r (rightCtx op)) := by
          simp [hrest]
        exact ⟨_, hshape⟩

/-- A flattened additive suffix before a sum stop is a term stop. -/
theorem stop1_sufToksE (s : List (BOp × Arith)) (rest : List Tok)
    (hops : ∀ p ∈ s, p.1 = BOp.add ∨ p.1 = BOp.sub) (hstop : stopT rest) :
    stop1 (sufToksE s ++ rest) := by
  cases s with
  | nil => exact Or.inl hstop
  | cons p s =>
    rcases hops p (List.mem_cons_self _ _) with h | h
    · refine Or.inr (Or.inl ⟨(toksArith p.2 1 ++ sufToksE s) ++ rest, ?_⟩)
      show (opTok p.1 :: (toksArith p.2 1 ++ sufToksE s)) ++ rest = _
      rw [h]
      rfl
    · refine Or.inr (Or.inr ⟨(toksArith p.2 1 ++ sufToksE s) ++ rest, ?_⟩)
      show (opTok p.1 :: (toksArith p.2 1 ++ sufToksE s)) ++ rest = _
      rw [h]
      rfl

/-- A flattened multiplicative suffix before a term stop is a unary stop. -/
theorem stop2_sufToksT (s : List (BOp × Arith)) (rest : List Tok)
    (hops : ∀ p ∈ s, p.1 = BOp.mul ∨ p.1 = BOp.div) (hstop : stop1 rest) :
    stop2 (sufToksT s ++ rest) := by
  cases s with
  | nil => exact Or.inl hstop
  | cons p s =>
    rcases hops p (List.mem_cons_self _ _) with h | h
    · refine Or.inr (Or.inl ⟨(toksArith p.2 2 ++ sufToksT s) ++ rest, ?_⟩)
      show (opTok p.1 :: (toksArith p.2 2 ++ sufToksT s)) ++ rest = _
      rw [h]
      rfl
    · refine Or.inr (Or.inr ⟨(toksArith p.2 2 ++ sufToksT s) ++ rest, ?_⟩)
      show (opTok p.1 :: (toksArith p.2 2 ++ sufToksT s)) ++ rest = _
      rw [h]
      rfl

/-- Running the sum loop over a flattened additive suffix folds the
suffix onto the accumulator, left-associatively. -/
theorem parse_exprLoop_run (s : List (BOp × Arith)) :
    ∀ (acc : PExpr) (rest : List Tok) (f : ℕ),
    stopT rest →
    (∀ p ∈ s, p.1 = BOp.add ∨ p.1 = BOp.sub) →
    (∀ p ∈ s, ∀ (rest2 : List Tok) (f2 : ℕ), stop1 rest2 → pc1 p.2 ≤ f2 →
      parseToks f2 .term (toksArith p.2 1 ++ rest2) = .ok (toPExpr p.2, rest2)) →
    pcLE s ≤ f →
    parseToks f (.exprLoop acc) (sufToksE s ++ rest) =
      .ok (List.foldl (fun a p => PExpr.binop p.1 a (toPExpr p.2)) acc s, rest) := by
  induction s with
  | nil =>
    intro acc rest f hstop _ _ hf
    obtain ⟨g, rfl⟩ : ∃ g, f = g + 1 := ⟨f - 1, by simp [pcLE] at hf; omega⟩
    exact parse_exprLoop_exit g acc rest hstop
  | cons p s ih =>
    intro acc rest f hstop hops hmem hf
    obtain ⟨op, m⟩ := p
    simp only [pcLE] at hf
    obtain ⟨g, rfl⟩ : ∃ g, f = g + 1 := ⟨f - 1, by omega⟩
    have hm := hmem (op, m) (List.mem_cons_self _ _) (sufToksE s ++ rest) g
      (stop1_sufToksE s rest (fun q hq => hops q (List.mem_cons_of_mem _ hq)) hstop)
      (by show pc1 m ≤ g; omega)
    have hloop := ih (.binop op acc (toPExpr m)) rest g hstop
      (fun q hq => hops q (List.mem_cons_of_mem _ hq))
      (fun q hq => hmem q (List.mem_cons_of_mem _ hq)) (by omega)
    have hop : op = BOp.add ∨ op = BOp.sub := hops (op, m) (List.mem_cons_self _ _)
    rcases hop with rfl | rfl
    · show parseToks (g + 1) (.exprLoop acc)
        ((Tok.plus :: (toksArith m 1 ++ sufToksE s)) ++ rest) = _
      have hassoc : (Tok.plus :: (toksArith m 1 ++ sufToksE s)) ++ rest =
          Tok.plus :: (toksArith m 1 ++ (sufToksE s ++ rest)) := by
        simp [List.append_assoc]
      rw [hassoc]
      simp only [parseToks]
      rw [hm]
      show parseToks g (.exprLoop (.binop .add acc (toPExpr m))) (sufToksE s ++ rest) = _
      rw [hloop]
      rfl
    · show parseToks (g + 1) (.exprLoop acc)
        ((Tok.minus :: (toksArith m 1 ++ sufToksE s)) ++ rest) = _
      have hassoc : (Tok.minus :: (toksArith m 1 ++ sufToksE s)) ++ rest =
          Tok.minus :: (toksArith m 1 ++ (sufToksE s ++ rest)) := by
        simp [List.append_assoc]
      rw [hassoc]
      simp only [parseToks]
      rw [hm]
      show parseToks g (.exprLoop (.binop .sub acc (toPExpr m))) (sufToksE s ++ rest) = _
      rw [hloop]
      rfl

/-- Running the term loop over a flattened multiplicative suffix folds
the suffix onto the accumulator, left-associatively. -/
theorem parse_termLoop_run (s : List (BOp × Arith)) :
    ∀ (acc : PExpr) (rest : List Tok) (f : ℕ),
    stop1 rest →
    (∀ p ∈ s, p.1 = BOp.mul ∨ p.1 = BOp.div) →
    (∀ p ∈ s, ∀ (rest2 : List Tok) (f2 : ℕ), stop2 rest2 → pc2 p.2 ≤ f2 →
      parseToks f2 .unary (toksArith p.2 2 ++ rest2) = .ok (toPExpr p.2, rest2)) →
    pcLT s ≤ f →
    parseToks f (.termLoop acc) (sufToksT s ++ rest) =
      .ok (List.foldl (fun a p => PExpr.binop p.1 a (toPExpr p.2)) acc s, rest) := by
  induction s with
  | nil =>
    intro acc rest f hstop _ _ hf
    obtain ⟨g, rfl⟩ : ∃ g, f = g + 1 := ⟨f - 1, by simp [pcLT] at hf; omega⟩
    exact parse_termLoop_exit g acc rest hstop
  | cons p s ih =>
    intro acc rest f hstop hops hmem hf
    obtain ⟨op, m⟩ := p
    simp only [pcLT] at hf
    obtain ⟨g, rfl⟩ : ∃ g, f = g + 1 := ⟨f - 1, by omega⟩
    have hm := hmem (op, m) (List.mem_cons_self _ _) (sufToksT s ++ rest) g
      (stop2_sufToksT s rest (fun q hq => hops q (List.mem_cons_of_mem _ hq)) hstop)
      (by show pc2 m ≤ g; omega)
    have hloop := ih (.binop op acc (toPExpr m)) rest g hstop
      (fun q hq => hops q (List.mem_cons_of_mem _ hq))
      (fun q hq => hmem q (List.mem_cons_of_mem _ hq)) (by omega)
    have hop : op = BOp.mul ∨ op = BOp.div := hops (op, m) (List.mem_cons_self _ _)
    rcases hop with rfl | rfl
    · show parseToks (g + 1) (.termLoop acc)
        ((Tok.star :: (toksArith m 2 ++ sufToksT s)) ++ rest) = _
      have hassoc : (Tok.star :: (toksArith m 2 ++ sufToksT s)) ++ rest =
          Tok.star :: (toksArith m 2 ++ (sufToksT s ++ rest)) := by
        simp [List.append_assoc]
      rw [hassoc]
      simp only [parseToks]
      rw [hm]
      show parseToks g (.termLoop (.binop .mul acc (toPExpr m))) (sufToksT s ++ rest) = _
      rw [hloop]
      rfl
    · show parseToks (g + 1) (.termLoop acc)
        ((Tok.slash :: (toksArith m 2 ++ sufToksT s)) ++ rest) = _
      have hassoc : (Tok.slash :: (toksArith m 2 ++ sufToksT s)) ++ rest =
          Tok.slash :: (toksArith m 2 ++ (sufToksT s ++ rest)) := by
        simp [List.append_assoc]
      rw [hassoc]
      simp only [parseToks]
      rw [hm]
      show parseToks g (.termLoop (.binop .div acc (toPExpr m))) (sufToksT s ++ rest) = _
      rw [hloop]
      rfl

/-- Stage rank used in the termination measure of the parser proof:
stage 0 is the sum level, 1 the term level, 2 the unary level, 3 the
postfix level.  Ranks order the same-size proof dependencies per root
shape. -/
def stRank (t : Arith) (st : ℕ) : ℕ :=
  match t with
  | .lit _ _ => if st = 0 then 3 else if st = 1 then 2 else if st = 2 then 1 else 4
  | .bin op _ _ =>
    match op with
    | .add => if st = 0 then 1 else if st = 1 then 3 else if st = 2 then 2 else 4
    | .sub => if st = 0 then 1 else if st = 1 then 3 else if st = 2 then 2 else 4
    | .mul => if st = 0 then 2 else if st = 1 then 1 else if st = 2 then 3 else 4
    | .div => if st = 0 then 2 else if st = 1 then 1 else if st = 2 then 3 else 4
    | .pow => if st = 0 then 3 else if st = 1 then 2 else if st = 2 then 1 else 4

/-- Parser proof measure: tree size dominates, stage rank breaks ties. -/
def mA (t : Arith) (st : ℕ) : ℕ := 8 * sizeT t + stRank t st

/-- Stage ranks are between 1 and 4. -/
theorem stRank_bounds (t : Arith) (st : ℕ) : 1 ≤ stRank t st ∧ stRank t st ≤ 4 := by
  cases t with
  | lit i frac =>
    simp only [stRank]
    split_ifs <;> omega
  | bin op l r =>
    cases op <;> simp only [stRank] <;> split_ifs <;> omega

/-- The term stage ranks below the sum stage on non-additive trees. -/
theorem stRank_10 (t : Arith) (h : isASb t = false) : stRank t 1 < stRank t 0 := by
  cases t with
  | lit i frac => simp [stRank]
  | bin op l r =>
    cases op with
    | add => simp [isASb] at h
    | sub => simp [isASb] at h
    | mul => simp [stRank]
    | div => simp [stRank]
    | pow => simp [stRank]

/-- The unary stage ranks below the term stage on non-multiplicative
trees. -/
theorem stRank_21 (t : Arith) (h : isMDb t = false) : stRank t 2 < stRank t 1 := by
  cases t with
  | lit i frac => simp [stRank]
  | bin op l r =>
    cases op with
    | add => simp [stRank]
    | sub => simp [stRank]
    | mul => simp [isMDb] at h
    | div => simp [isMDb] at h
    | pow => simp [stRank]

/-- The sum stage ranks below the unary stage on parenthesised shapes. -/
theorem stRank_02 (op : BOp) (l r : Arith) (h : opLevel op < 2) :
    stRank (.bin op l r) 0 < stRank (.bin op l r) 2 := by
  cases op with
  | add => simp [stRank]
  | sub => simp [stRank]
  | mul => simp [stRank]
  | div => simp [stRank]
  | pow => simp [opLevel] at h

/-- The sum stage ranks below the postfix stage on every tree. -/
theorem stRank_03 (t : Arith) : stRank t 0 < stRank t 3 := by
  cases t with
  | lit i frac => simp [stRank]
  | bin op l r => cases op <;> simp [stRank]

/-- A parenthesised node tokenizes as the parenthesised level-0 core. -/
theorem toks_paren (op : BOp) (l r : Arith) (ctx : ℕ) (h : opLevel op < ctx) :
    toksArith (.bin op l r) ctx =
      Tok.lparen :: (toksArith (.bin op l r) 0 ++ [Tok.rparen]) := by
  have h0 : toksArith (.bin op l r) 0 =
      toksArith l (leftCtx op) ++ opTok op :: toksArith r (rightCtx op) := by
    simp only [toksArith]
    rw [if_neg (by omega : ¬ opLevel op < 0)]
  rw [h0]
  simp only [toksArith]
  rw [if_pos h]

/-- Unary fuel of a parenthesised shape in terms of sum fuel. -/
theorem pc2_pc0 (op : BOp) (l r : Arith) (h : opLevel op < 2) :
    pc2 (.bin op l r) = pc0 (.bin op l r) + 4 := by
  cases op with
  | add => simp only [pc2, pc0, pcA]; omega
  | sub => simp only [pc2, pc0, pcA]; omega
  | mul => simp only [pc2, pc0, pcA]
  | div => simp only [pc2, pc0, pcA]
  | pow => simp [opLevel] at h

/-- Postfix fuel of a binary node in terms of sum fuel. -/
theorem pc4_pc0 (op : BOp) (l r : Arith) :
    pc4 (.bin op l r) = pc0 (.bin op l r) + 3 := by
  cases op <;> simp only [pc4, pc0, pcA] <;> omega

/-- Sum fuel is at least 2. -/
theorem pc0_ge (t : Arith) : 2 ≤ pc0 t := by
  have h1 := spineE_pc t
  have h2 := pcLE_ge (spineE t).2
  omega

/-- One-step unfolding of the parser at the sum level. -/
theorem parse_expr_step (f : ℕ) (toks : List Tok) :
    parseToks (f + 1) .expr toks =
      (parseToks f .term toks).bind (fun p => parseToks f (.exprLoop p.1) p.2) := rfl

/-- One-step unfolding of the parser at the term level. -/
theorem parse_term_step (f : ℕ) (toks : List Tok) :
    parseToks (f + 1) .term toks =
      (parseToks f .unary toks).bind (fun p => parseToks f (.termLoop p.1) p.2) := rfl

/-- One-step unfolding of the parser at the power level. -/
theorem parse_power_step (f : ℕ) (toks : List Tok) :
    parseToks (f + 1) .power toks =
      (parseToks f .post toks).bind (fun p =>
        match p.2 with
        | Tok.dstar :: ts2 =>
          (parseToks f .unary ts2).bind (fun q =>
            .ok (.binop .pow p.1 q.1, q.2))
        | _ => .ok (p.1, p.2)) := rfl

/-- One-step unfolding of the parser at the postfix level. -/
theorem parse_post_step (f : ℕ) (toks : List Tok) :
    parseToks (f + 1) .post toks =
      (parseToks f .atom toks).bind (fun p => parseToks f (.postLoop p.1) p.2) := rfl

/-- One-step unfolding of the atom rule on an opening parenthesis. -/
theorem parse_atom_lparen (f : ℕ) (ts : List Tok) :
    parseToks (f + 1) .atom (Tok.lparen :: ts) =
      (parseToks f .expr ts).bind (fun p =>
        match p.2 with
        | Tok.rparen :: ts3 => .ok (p.1, ts3)
        | _ => .error .synError) := rfl

/-- The unary level passes to the power level in front of any rendered
token list. -/
theorem parse_unary_pass_toks (f : ℕ) (t : Arith) (ctx : ℕ) (X : List Tok) :
    parseToks (f + 1) .unary (toksArith t ctx ++ X) =
      parseToks f .power (toksArith t ctx ++ X) := by
  rcases toksArith_head t ctx with ⟨v, rest, heq⟩ | ⟨rest, heq⟩ <;> rw [heq] <;> rfl

/-- Parsing a parenthesised group at the unary level: the group is
consumed by the atom rule, and the postfix and power levels pass it
through at a unary stop. -/
theorem parse_power_paren (g : ℕ) (inner : List Tok) (e : PExpr) (rest : List Tok)
    (hstop : stop2 rest)
    (hinner : parseToks g .expr (inner ++ (Tok.rparen :: rest)) =
      .ok (e, Tok.rparen :: rest)) :
    parseToks (g + 4) .unary (Tok.lparen :: (inner ++ (Tok.rparen :: rest))) =
      .ok (e, rest) := by
  have hatom : parseToks (g + 1) .atom (Tok.lparen :: (inner ++ (Tok.rparen :: rest)))
      = .ok (e, rest) := by
    rw [parse_atom_lparen, hinner]
    rfl
  have hpost : parseToks (g + 2) .post (Tok.lparen :: (inner ++ (Tok.rparen :: rest)))
      = .ok (e, rest) := by
    rw [parse_post_step, hatom]
    show parseToks (g + 1) (.postLoop e) rest = _
    exact parse_postLoop_exit g e rest (Or.inl hstop)
  have hpower : parseToks (g + 3) .power (Tok.lparen :: (inner ++ (Tok.rparen :: rest)))
      = .ok (e, rest) := by
    rw [parse_power_step, hpost]
    rcases hstop with ((rfl | ⟨ts2, rfl⟩) | ⟨ts2, rfl⟩ | ⟨ts2, rfl⟩) | ⟨ts2, rfl⟩ |
      ⟨ts2, rfl⟩ <;> rfl
  show parseToks (g + 3) .power (Tok.lparen :: (inner ++ (Tok.rparen :: rest))) = _
  exact hpower

/-- Parsing a parenthesised group at the postfix level. -/
theorem parse_post_paren (g : ℕ) (inner : List Tok) (e : PExpr) (rest : List Tok)
    (hstop : stop4 rest)
    (hinner : parseToks g .expr (inner ++ (Tok.rparen :: rest)) =
      .ok (e, Tok.rparen :: rest)) :
    parseToks (g + 2) .post (Tok.lparen :: (inner ++ (Tok.rparen :: rest))) =
      .ok (e, rest) := by
  have hatom : parseToks (g + 1) .atom (Tok.lparen :: (inner ++ (Tok.rparen :: rest)))
      = .ok (e, rest) := by
    rw [parse_atom_lparen, hinner]
    rfl
  rw [parse_post_step, hatom]
  show parseToks (g + 1) (.postLoop e) rest = _
  exact parse_postLoop_exit g e rest hstop

/-- Reduction of a monadic bind on a successful result. -/
theorem exc_bind_ok {α β : Type} (a : α) (f : α → Except PyErr β) :
    (Except.ok a >>= f) = f a := rfl

/-- Every parser fuel component is at least 2. -/
theorem pcA_ge (t : Arith) : 2 ≤ pc0 t ∧ 2 ≤ pc1 t ∧ 2 ≤ pc2 t ∧ 2 ≤ pc4 t := by
  induction t with
  | lit i frac =>
    refine ⟨?_, ?_, ?_, ?_⟩
    · show (2 : ℕ) ≤ 9; omega
    · show (2 : ℕ) ≤ 7; omega
    · show (2 : ℕ) ≤ 5; omega
    · show (2 : ℕ) ≤ 3; omega
  | bin op l r ihl ihr =>
    obtain ⟨ha, hb, hc, hd⟩ := ihl
    obtain ⟨ha2, hb2, hc2, hd2⟩ := ihr
    cases op with
    | add =>
      refine ⟨?_, ?_, ?_, ?_⟩
      · show 2 ≤ pc0 l + 1 + pc1 r; omega
      · show 2 ≤ 7 + pc0 l + pc1 r; omega
      · show 2 ≤ 5 + pc0 l + pc1 r; omega
      · show 2 ≤ 4 + pc0 l + pc1 r; omega
    | sub =>
      refine ⟨?_, ?_, ?_, ?_⟩
      · show 2 ≤ pc0 l + 1 + pc1 r; omega
      · show 2 ≤ 7 + pc0 l + pc1 r; omega
      · show 2 ≤ 5 + pc0 l + pc1 r; omega
      · show 2 ≤ 4 + pc0 l + pc1 r; omega
    | mul =>
      refine ⟨?_, ?_, ?_, ?_⟩
      · show 2 ≤ pc1 l + pc2 r + 3; omega
      · show 2 ≤ pc1 l + 1 + pc2 r; omega
      · show 2 ≤ pc1 l + pc2 r + 7; omega
      · show 2 ≤ pc1 l + pc2 r + 6; omega
    | div =>
      refine ⟨?_, ?_, ?_, ?_⟩
      · show 2 ≤ pc1 l + pc2 r + 3; omega
      · show 2 ≤ pc1 l + 1 + pc2 r; omega
      · show 2 ≤ pc1 l + pc2 r + 7; omega
      · show 2 ≤ pc1 l + pc2 r + 6; omega
    | pow =>
      refine ⟨?_, ?_, ?_, ?_⟩
      · show 2 ≤ 6 + pc4 l + pc2 r; omega
      · show 2 ≤ 4 + pc4 l + pc2 r; omega
      · show 2 ≤ 2 + pc4 l + pc2 r; omega
      · show 2 ≤ 9 + pc4 l + pc2 r; omega

/-- Sum-level parser correctness property of a tree. -/
def PB0 (t : Arith) : Prop :=
  ∀ (rest : List Tok) (f : ℕ), stopT rest → pc0 t ≤ f →
    parseToks f .expr (toksArith t 0 ++ rest) = Except.ok (toPExpr t, rest)

/-- Term-level parser correctness property of a tree. -/
def PB1 (t : Arith) : Prop :=
  ∀ (rest : List Tok) (f : ℕ), stop1 rest → pc1 t ≤ f →
    parseToks f .term (toksArith t 1 ++ rest) = Except.ok (toPExpr t, rest)

/-- Unary-level parser correctness property of a tree. -/
def PB2 (t : Arith) : Prop :=
  ∀ (rest : List Tok) (f : ℕ), stop2 rest → pc2 t ≤ f →
    parseToks f .unary (toksArith t 2 ++ rest) = Except.ok (toPExpr t, rest)

/-- Postfix-level parser correctness property of a tree. -/
def PB4 (t : Arith) : Prop :=
  ∀ (rest : List Tok) (f : ℕ), stop4 rest → pc4 t ≤ f →
    parseToks f .post (toksArith t 4 ++ rest) = Except.ok (toPExpr t, rest)

/-- The sum level parses a tree given term-level correctness of its
additive spine components. -/
theorem expr_case (t : Arith) (hB1h : PB1 (spineE t).1)
    (hB1m : ∀ p ∈ (spineE t).2, PB1 p.2) : PB0 t := by
  intro rest f hstop hf
  have hpc := spineE_pc t
  have hgeh : 2 ≤ pc1 (spineE t).1 := (pcA_ge (spineE t).1).2.1
  have hgeL := pcLE_ge (spineE t).2
  obtain ⟨g, rfl⟩ : ∃ g, f = g + 1 := ⟨f - 1, by omega⟩
  rw [spineE_toks t, List.append_assoc, parse_expr_step]
  have hterm := hB1h (sufToksE (spineE t).2 ++ rest) g
    (stop1_sufToksE (spineE t).2 rest (spineE_ops t) hstop) (by omega)
  rw [hterm]
  show parseToks g (PLvl.exprLoop (toPExpr (spineE t).1))
    (sufToksE (spineE t).2 ++ rest) = Except.ok (toPExpr t, rest)
  rw [parse_exprLoop_run (spineE t).2 (toPExpr (spineE t).1) rest g hstop
    (spineE_ops t) (fun p hp => hB1m p hp) (by omega), spineE_conv t]

/-- The term level parses a tree given unary-level correctness of its
multiplicative spine components. -/
theorem term_case (t : Arith) (hB2h : PB2 (spineT t).1)
    (hB2m : ∀ p ∈ (spineT t).2, PB2 p.2) : PB1 t := by
  intro rest f hstop hf
  have hpc := spineT_pc t
  have hgeh : 2 ≤ pc2 (spineT t).1 := (pcA_ge (spineT t).1).2.2.1
  have hgeL := pcLT_ge (spineT t).2
  obtain ⟨g, rfl⟩ : ∃ g, f = g + 1 := ⟨f - 1, by omega⟩
  rw [spineT_toks t, List.append_assoc, parse_term_step]
  have hunary := hB2h (sufToksT (spineT t).2 ++ rest) g
    (stop2_sufToksT (spineT t).2 rest (spineT_ops t) hstop) (by omega)
  rw [hunary]
  show parseToks g (PLvl.termLoop (toPExpr (spineT t).1))
    (sufToksT (spineT t).2 ++ rest) = Except.ok (toPExpr t, rest)
  rw [parse_termLoop_run (spineT t).2 (toPExpr (spineT t).1) rest g hstop
    (spineT_ops t) (fun p hp => hB2m p hp) (by omega), spineT_conv t]

/-- The unary level parses a bare numeric literal. -/
theorem unary_lit_case (i : ℕ) (frac : Option (List (Fin 10))) :
    PB2 (.lit i frac) := by
  intro rest f hstop hf
  have h5 : pc2 (Arith.lit i frac) = 5 := rfl
  obtain ⟨g, rfl⟩ : ∃ g, f = g + 4 := ⟨f - 4, by omega⟩
  show parseToks (g + 3) .power (Tok.num (litVal i frac) :: rest) =
    Except.ok (PExpr.lit (litVal i frac), rest)
  rw [parse_power_step]
  have hpost : parseToks (g + 2) .post (Tok.num (litVal i frac) :: rest) =
      Except.ok (PExpr.lit (litVal i frac), rest) := by
    rw [parse_post_step]
    have hatom : parseToks (g + 1) .atom (Tok.num (litVal i frac) :: rest) =
        Except.ok (PExpr.lit (litVal i frac), rest) := rfl
    rw [hatom]
    show parseToks (g + 1) (PLvl.postLoop (PExpr.lit (litVal i frac))) rest = _
    exact parse_postLoop_exit g _ rest (Or.inl hstop)
  rw [hpost]
  rcases hstop with ((rfl | ⟨ts2, rfl⟩) | ⟨ts2, rfl⟩ | ⟨ts2, rfl⟩) | ⟨ts2, rfl⟩ |
    ⟨ts2, rfl⟩ <;> rfl

/-- The postfix level parses a bare numeric literal. -/
theorem post_lit_case (i : ℕ) (frac : Option (List (Fin 10))) :
    PB4 (.lit i frac) := by
  intro rest f hstop hf
  have h3 : pc4 (Arith.lit i frac) = 3 := rfl
  obtain ⟨g, rfl⟩ : ∃ g, f = g + 2 := ⟨f - 2, by omega⟩
  show parseToks (g + 2) .post (Tok.num (litVal i frac) :: rest) =
    Except.ok (PExpr.lit (litVal i frac), rest)
  rw [parse_post_step]
  have hatom : parseToks (g + 1) .atom (Tok.num (litVal i frac) :: rest) =
      Except.ok (PExpr.lit (litVal i frac), rest) := rfl
  rw [hatom]
  show parseToks (g + 1) (PLvl.postLoop (PExpr.lit (litVal i frac))) rest = _
  exact parse_postLoop_exit g _ rest hstop

/-- The unary level parses a power node: the left operand at the postfix
level, the `**` token, then the right operand back at the unary level —
right-associativity. -/
theorem unary_pow_case (l r : Arith) (hB4l : PB4 l) (hB2r : PB2 r) :
    PB2 (.bin .pow l r) := by
  intro rest f hstop hf
  have hpc : pc2 (Arith.bin .pow l r) = 2 + pc4 l + pc2 r := rfl
  have htoks : toksArith (Arith.bin .pow l r) 2 =
      toksArith l 4 ++ Tok.dstar :: toksArith r 2 := rfl
  obtain ⟨g, rfl⟩ : ∃ g, f = g + 2 := ⟨f - 2, by omega⟩
  rw [htoks]
  have hassoc : (toksArith l 4 ++ Tok.dstar :: toksArith r 2) ++ rest =
      toksArith l 4 ++ (Tok.dstar :: (toksArith r 2 ++ rest)) := by simp
  rw [hassoc]
  rw [parse_unary_pass_toks (g + 1) l 4 (Tok.dstar :: (toksArith r 2 ++ rest))]
  rw [parse_power_step]
  have hpost := hB4l (Tok.dstar :: (toksArith r 2 ++ rest)) g (Or.inr ⟨_, rfl⟩)
    (by omega)
  rw [hpost]
  show (parseToks g .unary (toksArith r 2 ++ rest)).bind
      (fun q => Except.ok (PExpr.binop .pow (toPExpr l) q.1, q.2)) =
    Except.ok (toPExpr (Arith.bin .pow l r), rest)
  rw [hB2r rest g hstop (by omega)]
  rfl

/-- The unary level parses a parenthesised additive or multiplicative
node through the atom rule. -/
theorem unary_paren_case (op : BOp) (l r : Arith) (h2 : opLevel op < 2)
    (hB0 : PB0 (.bin op l r)) : PB2 (.bin op l r) := by
  intro rest f hstop hf
  have hpc := pc2_pc0 op l r h2
  have hge := pc0_ge (Arith.bin op l r)
  obtain ⟨g, rfl⟩ : ∃ g, f = g + 4 := ⟨f - 4, by omega⟩
  rw [toks_paren op l r 2 h2]
  have hassoc : (Tok.lparen :: (toksArith (Arith.bin op l r) 0 ++ [Tok.rparen])) ++
      rest = Tok.lparen :: (toksArith (Arith.bin op l r) 0 ++ (Tok.rparen :: rest)) := by
    simp
  rw [hassoc]
  have hinner := hB0 (Tok.rparen :: rest) g (Or.inr ⟨rest, rfl⟩) (by omega)
  exact parse_power_paren g (toksArith (Arith.bin op l r) 0)
    (toPExpr (Arith.bin op l r)) rest hstop hinner

/-- Every binary operator is parenthesised at the postfix context. -/
theorem opLevel_lt4 (op : BOp) : opLevel op < 4 := by
  cases op <;> decide

/-- The postfix level parses any parenthesised binary node through the
atom rule. -/
theorem post_paren_case (op : BOp) (l r : Arith) (hB0 : PB0 (.bin op l r)) :
    PB4 (.bin op l r) := by
  intro rest f hstop hf
  have hpc := pc4_pc0 op l r
  have hge := pc0_ge (Arith.bin op l r)
  obtain ⟨g, rfl⟩ : ∃ g, f = g + 2 := ⟨f - 2, by omega⟩
  rw [toks_paren op l r 4 (opLevel_lt4 op)]
  have hassoc : (Tok.lparen :: (toksArith (Arith.bin op l r) 0 ++ [Tok.rparen])) ++
      rest = Tok.lparen :: (toksArith (Arith.bin op l r) 0 ++ (Tok.rparen :: rest)) := by
    simp
  rw [hassoc]
  have hinner := hB0 (Tok.rparen :: rest) g (Or.inr ⟨rest, rfl⟩) (by omega)
  exact parse_post_paren g (toksArith (Arith.bin op l r) 0)
    (toPExpr (Arith.bin op l r)) rest hstop hinner

/-- A proper subtree has a smaller measure at any pair of stages. -/
theorem mA_lt_of_size (u t : Arith) (su st : ℕ) (h : sizeT u < sizeT t) :
    mA u su < mA t st := by
  have h1 := stRank_bounds u su
  have h2 := stRank_bounds t st
  simp only [mA]
  omega

/-- A rank drop at equal size is a measure drop. -/
theorem mA_lt_of_rank (t : Arith) (s1 s2 : ℕ) (h : stRank t s1 < stRank t s2) :
    mA t s1 < mA t s2 := by
  simp only [mA]
  omega

/-- The left operand is a proper subtree. -/
theorem sizeT_left (op : BOp) (l r : Arith) : sizeT l < sizeT (.bin op l r) := by
  show sizeT l < 1 + sizeT l + sizeT r
  omega

/-- The right operand is a proper subtree. -/
theorem sizeT_right (op : BOp) (l r : Arith) : sizeT r < sizeT (.bin op l r) := by
  show sizeT r < 1 + sizeT l + sizeT r
  omega

/-- Parser correctness at all four grammar levels, by strong induction
on the measure: a rendered tree followed by a stop suffix parses to its
parsed form, consuming exactly its tokens, given the stage fuel. -/
theorem parseMain (k : ℕ) : ∀ t : Arith,
    (mA t 0 ≤ k → PB0 t) ∧ (mA t 1 ≤ k → PB1 t) ∧
    (mA t 2 ≤ k → PB2 t) ∧ (mA t 3 ≤ k → PB4 t) := by
  induction k using Nat.strong_induction_on with
  | _ k ih =>
    intro t
    refine ⟨?_, ?_, ?_, ?_⟩
    · intro hk
      have hmh : mA (spineE t).1 1 < mA t 0 := by
        by_cases hA : isASb t = true
        · exact mA_lt_of_size _ _ _ _ ((spineE_size t).2.1 hA)
        · have hA2 : isASb t = false := by
            cases hA3 : isASb t
            · rfl
            · exact absurd hA3 hA
          rw [spineE_eq_self t hA2]
          exact mA_lt_of_rank t 1 0 (stRank_10 t hA2)
      refine expr_case t ?_ ?_
      · exact (ih (mA (spineE t).1 1) (by omega) (spineE t).1).2.1 (le_refl _)
      · intro p hp
        have hsz := (spineE_size t).2.2 p hp
        have hlt : mA p.2 1 < k := lt_of_lt_of_le (mA_lt_of_size p.2 t 1 0 hsz) hk
        exact (ih (mA p.2 1) hlt p.2).2.1 (le_refl _)
    · intro hk
      have hmh : mA (spineT t).1 2 < mA t 1 := by
        by_cases hA : isMDb t = true
        · exact mA_lt_of_size _ _ _ _ ((spineT_size t).2.1 hA)
        · have hA2 : isMDb t = false := by
            cases hA3 : isMDb t
            · rfl
            · exact absurd hA3 hA
          rw [spineT_eq_self t hA2]
          exact mA_lt_of_rank t 2 1 (stRank_21 t hA2)
      refine term_case t ?_ ?_
      · exact (ih (mA (spineT t).1 2) (by omega) (spineT t).1).2.2.1 (le_refl _)
      · intro p hp
        have hsz := (spineT_size t).2.2 p hp
        have hlt : mA p.2 2 < k := lt_of_lt_of_le (mA_lt_of_size p.2 t 2 1 hsz) hk
        exact (ih (mA p.2 2) hlt p.2).2.2.1 (le_refl _)
    · intro hk
      cases t with
      | lit i frac => exact unary_lit_case i frac
      | bin op l r =>
        cases op with
        | add =>
          refine unary_paren_case BOp.add l r (by decide) ?_
          exact (ih (mA (Arith.bin BOp.add l r) 0)
            (lt_of_lt_of_le (mA_lt_of_rank _ 0 2 (stRank_02 BOp.add l r (by decide)))
              hk) (Arith.bin BOp.add l r)).1 (le_refl _)
        | sub =>
          refine unary_paren_case BOp.sub l r (by decide) ?_
          exact (ih (mA (Arith.bin BOp.sub l r) 0)
            (lt_of_lt_of_le (mA_lt_of_rank _ 0 2 (stRank_02 BOp.sub l r (by decide)))
              hk) (Arith.bin BOp.sub l r)).1 (le_refl _)
        | mul =>
          refine unary_paren_case BOp.mul l r (by decide) ?_
          exact (ih (mA (Arith.bin BOp.mul l r) 0)
            (lt_of_lt_of_le (mA_lt_of_rank _ 0 2 (stRank_02 BOp.mul l r (by decide)))
              hk) (Arith.bin BOp.mul l r)).1 (le_refl _)
        | div =>
          refine unary_paren_case BOp.div l r (by decide) ?_
          exact (ih (mA (Arith.bin BOp.div l r) 0)
            (lt_of_lt_of_le (mA_lt_of_rank _ 0 2 (stRank_02 BOp.div l r (by decide)))
              hk) (Arith.bin BOp.div l r)).1 (le_refl _)
        | pow =>
          refine unary_pow_case l r ?_ ?_
          · exact (ih (mA l 3)
              (lt_of_lt_of_le (mA_lt_of_size l _ 3 2 (sizeT_left BOp.pow l r)) hk)
              l).2.2.2 (le_refl _)
          · exact (ih (mA r 2)
              (lt_of_lt_of_le (mA_lt_of_size r _ 2 2 (sizeT_right BOp.pow l r)) hk)
              r).2.2.1 (le_refl _)
    · intro hk
      cases t with
      | lit i frac => exact post_lit_case i frac
      | bin op l r =>
        refine post_paren_case op l r ?_
        exact (ih (mA (Arith.bin op l r) 0)
          (lt_of_lt_of_le (mA_lt_of_rank _ 0 3 (stRank_03 _)) hk)
          (Arith.bin op l r)).1 (le_refl _)

/-- A rendered tree parses completely at the sum level. -/
theorem parse_full (t : Arith) (f : ℕ) (hf : pc0 t ≤ f) :
    parseToks f .expr (toksArith t 0) = Except.ok (toPExpr t, []) := by
  have h := (parseMain (mA t 0) t).1 (le_refl _) [] f (Or.inl rfl) hf
  rwa [List.append_nil] at h

/-- A rendered natural number is nonempty. -/
theorem natStr_len (n : ℕ) : 1 ≤ (natStr n).length := by
  obtain ⟨d, rest, hd, he⟩ := natStr_head n
  rw [he]
  simp

/-- The tokenizer fuel of a rendered tree is at most twice its length. -/
theorem tcost_le (t : Arith) : ∀ ctx : ℕ,
    tcost t ctx ≤ 2 * (renderArith t ctx).length := by
  induction t with
  | lit i frac =>
    intro ctx
    cases frac with
    | none =>
      have h := natStr_len i
      show (natStr i).length + 1 ≤ 2 * (natStr i ++ []).length
      simp only [List.append_nil]
      omega
    | some ds =>
      show (natStr i).length + ds.length + 2 ≤
        2 * (natStr i ++ ('.' :: ds.map (fun d => digitChar d.val))).length
      simp only [List.length_append, List.length_cons, List.length_map]
      omega
  | bin op l r ihl ihr =>
    intro ctx
    have hl := ihl (leftCtx op)
    have hr := ihr (rightCtx op)
    have hoc : 1 ≤ (opChars op).length := by cases op <;> decide
    by_cases hp : opLevel op < ctx
    · have hT : tcost (Arith.bin op l r) ctx =
          tcost l (leftCtx op) + 1 + tcost r (rightCtx op) + 2 := by
        simp only [tcost]
        rw [if_pos hp]
      have hR : (renderArith (Arith.bin op l r) ctx).length =
          (renderArith l (leftCtx op)).length + (opChars op).length +
            (renderArith r (rightCtx op)).length + 2 := by
        simp only [renderArith]
        rw [if_pos hp]
        simp only [List.length_cons, List.length_append, List.length_nil]
      rw [hT, hR]
      omega
    · have hT : tcost (Arith.bin op l r) ctx =
          tcost l (leftCtx op) + 1 + tcost r (rightCtx op) := by
        simp only [tcost]
        rw [if_neg hp]
      have hR : (renderArith (Arith.bin op l r) ctx).length =
          (renderArith l (leftCtx op)).length + (opChars op).length +
            (renderArith r (rightCtx op)).length := by
        simp only [renderArith]
        rw [if_neg hp]
        simp only [List.length_append]
      rw [hT, hR]
      omega

/-- The full tokenizer run of `_evaluate_expression` on a rendered tree:
with the fuel the code computes from the text length, the tokenizer
produces exactly the tree's token list. -/
theorem tok_full (t : Arith) :
    tokA (2 * (renderArith t 0).length + 2) .top (renderArith t 0) =
      Except.ok (toksArith t 0) := by
  have h1 := tcost_le t 0
  have hbase : tokA (2 * (renderArith t 0).length + 2 - tcost t 0) .top [] =
      Except.ok [] := by
    obtain ⟨g, hg⟩ : ∃ g, 2 * (renderArith t 0).length + 2 - tcost t 0 = g + 1 :=
      ⟨2 * (renderArith t 0).length + 1 - tcost t 0, by omega⟩
    rw [hg]
    rfl
  have h := tokSeg t 0 [] (2 * (renderArith t 0).length + 2 - tcost t 0) []
    (Or.inl rfl) hbase
  have harith : tcost t 0 + (2 * (renderArith t 0).length + 2 - tcost t 0) =
      2 * (renderArith t 0).length + 2 := by omega
  rw [harith, List.append_nil, List.append_nil] at h
  exact h

/-- Token count of an unparenthesised binary node. -/
theorem toksArith_len_core (op : BOp) (l r : Arith) (ctx : ℕ)
    (h : ¬ opLevel op < ctx) :
    (toksArith (.bin op l r) ctx).length =
      (toksArith l (leftCtx op)).length + 1 + (toksArith r (rightCtx op)).length := by
  simp only [toksArith]
  rw [if_neg h]
  simp only [List.length_append, List.length_cons]
  omega

/-- Token count of a parenthesised binary node. -/
theorem toksArith_len_paren (op : BOp) (l r : Arith) (ctx : ℕ)
    (h : opLevel op < ctx) :
    (toksArith (.bin op l r) ctx).length =
      (toksArith l (leftCtx op)).length + 1 + (toksArith r (rightCtx op)).length
        + 2 := by
  rw [toks_paren op l r ctx h]
  have h0 : (toksArith (Arith.bin op l r) 0).length =
      (toksArith l (leftCtx op)).length + 1 + (toksArith r (rightCtx op)).length :=
    toksArith_len_core op l r 0 (by omega)
  simp only [List.length_cons, List.length_append, List.length_nil]
  omega

/-- The stage fuels are covered by the parser fuel the code computes
from the token count, with the slack each stage needs. -/
theorem pc_le (t : Arith) :
    pc0 t + 1 ≤ 10 * (toksArith t 0).length ∧
    pc1 t + 3 ≤ 10 * (toksArith t 1).length ∧
    pc2 t + 5 ≤ 10 * (toksArith t 2).length ∧
    pc4 t + 7 ≤ 10 * (toksArith t 4).length := by
  induction t with
  | lit i frac =>
    refine ⟨?_, ?_, ?_, ?_⟩
    · show 9 + 1 ≤ 10 * (1 : ℕ); omega
    · show 7 + 3 ≤ 10 * (1 : ℕ); omega
    · show 5 + 5 ≤ 10 * (1 : ℕ); omega
    · show 3 + 7 ≤ 10 * (1 : ℕ); omega
  | bin op l r ihl ihr =>
    obtain ⟨ha, hb, hc, hd⟩ := ihl
    obtain ⟨ha2, hb2, hc2, hd2⟩ := ihr
    cases op with
    | add =>
      have e0 : (toksArith (Arith.bin BOp.add l r) 0).length =
          (toksArith l 0).length + 1 + (toksArith r 1).length :=
        toksArith_len_core BOp.add l r 0 (by decide)
      have e1 : (toksArith (Arith.bin BOp.add l r) 1).length =
          (toksArith l 0).length + 1 + (toksArith r 1).length + 2 :=
        toksArith_len_paren BOp.add l r 1 (by decide)
      have e2 : (toksArith (Arith.bin BOp.add l r) 2).length =
          (toksArith l 0).length + 1 + (toksArith r 1).length + 2 :=
        toksArith_len_paren BOp.add l r 2 (by decide)
      have e4 : (toksArith (Arith.bin BOp.add l r) 4).length =
          (toksArith l 0).length + 1 + (toksArith r 1).length + 2 :=
        toksArith_len_paren BOp.add l r 4 (by decide)
      refine ⟨?_, ?_, ?_, ?_⟩
      · show pc0 l + 1 + pc1 r + 1 ≤ 10 * (toksArith (Arith.bin BOp.add l r) 0).length
        omega
      · show 7 + pc0 l + pc1 r + 3 ≤ 10 * (toksArith (Arith.bin BOp.add l r) 1).length
        omega
      · show 5 + pc0 l + pc1 r + 5 ≤ 10 * (toksArith (Arith.bin BOp.add l r) 2).length
        omega
      · show 4 + pc0 l + pc1 r + 7 ≤ 10 * (toksArith (Arith.bin BOp.add l r) 4).length
        omega
    | sub =>
      have e0 : (toksArith (Arith.bin BOp.sub l r) 0).length =
          (toksArith l 0).length + 1 + (toksArith r 1).length :=
        toksArith_len_core BOp.sub l r 0 (by decide)
      have e1 : (toksArith (Arith.bin BOp.sub l r) 1).length =
          (toksArith l 0).length + 1 + (toksArith r 1).length + 2 :=
        toksArith_len_paren BOp.sub l r 1 (by decide)
      have e2 : (toksArith (Arith.bin BOp.sub l r) 2).length =
          (toksArith l 0).length + 1 + (toksArith r 1).length + 2 :=
        toksArith_len_paren BOp.sub l r 2 (by decide)
      have e4 : (toksArith (Arith.bin BOp.sub l r) 4).length =
          (toksArith l 0).length + 1 + (toksArith r 1).length + 2 :=
        toksArith_len_paren BOp.sub l r 4 (by decide)
      refine ⟨?_, ?_, ?_, ?_⟩
      · show pc0 l + 1 + pc1 r + 1 ≤ 10 * (toksArith (Arith.bin BOp.sub l r) 0).length
        omega
      · show 7 + pc0 l + pc1 r + 3 ≤ 10 * (toksArith (Arith.bin BOp.sub l r) 1).length
        omega
      · show 5 + pc0 l + pc1 r + 5 ≤ 10 * (toksArith (Arith.bin BOp.sub l r) 2).length
        omega
      · show 4 + pc0 l + pc1 r + 7 ≤ 10 * (toksArith (Arith.bin BOp.sub l r) 4).length
        omega
    | mul =>
      have e0 : (toksArith (Arith.bin BOp.mul l r) 0).length =
          (toksArith l 1).length + 1 + (toksArith r 2).length :=
        toksArith_len_core BOp.mul l r 0 (by decide)
      have e1 : (toksArith (Arith.bin BOp.mul l r) 1).length =
          (toksArith l 1).length + 1 + (toksArith r 2).length :=
        toksArith_len_core BOp.mul l r 1 (by decide)
      have e2 : (toksArith (Arith.bin BOp.mul l r) 2).length =
          (toksArith l 1).length + 1 + (toksArith r 2).length + 2 :=
        toksArith_len_paren BOp.mul l r 2 (by decide)
      have e4 : (toksArith (Arith.bin BOp.mul l r) 4).length =
          (toksArith l 1).length + 1 + (toksArith r 2).length + 2 :=
        toksArith_len_paren BOp.mul l r 4 (by decide)
      refine ⟨?_, ?_, ?_, ?_⟩
      · show pc1 l + pc2 r + 3 + 1 ≤ 10 * (toksArith (Arith.bin BOp.mul l r) 0).length
        omega
      · show pc1 l + 1 + pc2 r + 3 ≤ 10 * (toksArith (Arith.bin BOp.mul l r) 1).length
        omega
      · show pc1 l + pc2 r + 7 + 5 ≤ 10 * (toksArith (Arith.bin BOp.mul l r) 2).length
        omega
      · show pc1 l + pc2 r + 6 + 7 ≤ 10 * (toksArith (Arith.bin BOp.mul l r) 4).length
        omega
    | div =>
      have e0 : (toksArith (Arith.bin BOp.div l r) 0).length =
          (toksArith l 1).length + 1 + (toksArith r 2).length :=
        toksArith_len_core BOp.div l r 0 (by decide)
      have e1 : (toksArith (Arith.bin BOp.div l r) 1).length =
          (toksArith l 1).length + 1 + (toksArith r 2).length :=
        toksArith_len_core BOp.div l r 1 (by decide)
      have e2 : (toksArith (Arith.bin BOp.div l r) 2).length =
          (toksArith l 1).length + 1 + (toksArith r 2).length + 2 :=
        toksArith_len_paren BOp.div l r 2 (by decide)
      have e4 : (toksArith (Arith.bin BOp.div l r) 4).length =
          (toksArith l 1).length + 1 + (toksArith r 2).length + 2 :=
        toksArith_len_paren BOp.div l r 4 (by decide)
      refine ⟨?_, ?_, ?_, ?_⟩
      · show pc1 l + pc2 r + 3 + 1 ≤ 10 * (toksArith (Arith.bin BOp.div l r) 0).length
        omega
      · show pc1 l + 1 + pc2 r + 3 ≤ 10 * (toksArith (Arith.bin BOp.div l r) 1).length
        omega
      · show pc1 l + pc2 r + 7 + 5 ≤ 10 * (toksArith (Arith.bin BOp.div l r) 2).length
        omega
      · show pc1 l + pc2 r + 6 + 7 ≤ 10 * (toksArith (Arith.bin BOp.div l r) 4).length
        omega
    | pow =>
      have e0 : (toksArith (Arith.bin BOp.pow l r) 0).length =
          (toksArith l 4).length + 1 + (toksArith r 2).length :=
        toksArith_len_core BOp.pow l r 0 (by decide)
      have e1 : (toksArith (Arith.bin BOp.pow l r) 1).length =
          (toksArith l 4).length + 1 + (toksArith r 2).length :=
        toksArith_len_core BOp.pow l r 1 (by decide)
      have e2 : (toksArith (Arith.bin BOp.pow l r) 2).length =
          (toksArith l 4).length + 1 + (toksArith r 2).length :=
        toksArith_len_core BOp.pow l r 2 (by decide)
      have e4 : (toksArith (Arith.bin BOp.pow l r) 4).length =
          (toksArith l 4).length + 1 + (toksArith r 2).length + 2 :=
        toksArith_len_paren BOp.pow l r 4 (by decide)
      refine ⟨?_, ?_, ?_, ?_⟩
      · show 6 + pc4 l + pc2 r + 1 ≤ 10 * (toksArith (Arith.bin BOp.pow l r) 0).length
        omega
      · show 4 + pc4 l + pc2 r + 3 ≤ 10 * (toksArith (Arith.bin BOp.pow l r) 1).length
        omega
      · show 2 + pc4 l + pc2 r + 5 ≤ 10 * (toksArith (Arith.bin BOp.pow l r) 2).length
        omega
      · show 9 + pc4 l + pc2 r + 7 ≤ 10 * (toksArith (Arith.bin BOp.pow l r) 4).length
        omega

/-- Evaluating a binary node of the parsed form combines the operand
results with the operator's numeric action. -/
theorem evalPE_binop (lib : MathLib) (env : List (String × PyVal)) (op : BOp)
    (L R : PExpr) (X Y : Except PyErr PyNum) (F : PyNum → PyNum → Except PyErr PyNum)
    (hL : evalPE lib env L = X.map PyVal.num) (hR : evalPE lib env R = Y.map PyVal.num)
    (hF : ∀ a b, applyBOp lib op (PyVal.num a) (PyVal.num b) = (F a b).map PyVal.num) :
    evalPE lib env (.binop op L R) =
      (X.bind (fun a => Y.bind (fun b => F a b))).map PyVal.num := by
  cases X with
  | error e =>
    show Bind.bind (evalPE lib env L)
      (fun vl => Bind.bind (evalPE lib env R) (fun vr => applyBOp lib op vl vr)) = _
    rw [hL]
    rfl
  | ok a =>
    cases Y with
    | error e =>
      show Bind.bind (evalPE lib env L)
        (fun vl => Bind.bind (evalPE lib env R) (fun vr => applyBOp lib op vl vr)) = _
      rw [hL, hR]
      rfl
    | ok b =>
      show Bind.bind (evalPE lib env L)
        (fun vl => Bind.bind (evalPE lib env R) (fun vr => applyBOp lib op vl vr)) = _
      rw [hL, hR]
      show applyBOp lib op (PyVal.num a) (PyVal.num b) = (F a b).map PyVal.num
      exact hF a b

/-- CPython `eval` on the parsed form of a tree computes exactly the
arithmetic value of the tree (the environment is never consulted: the
tree holds no identifier). -/
theorem evalPE_toPExpr (lib : MathLib) (env : List (String × PyVal)) (t : Arith) :
    evalPE lib env (toPExpr t) = (evalArith lib t).map PyVal.num := by
  induction t with
  | lit i frac => rfl
  | bin op l r ihl ihr =>
    cases op with
    | add =>
      exact evalPE_binop lib env BOp.add (toPExpr l) (toPExpr r)
        (evalArith lib l) (evalArith lib r) (fun a b => Except.ok (pyAdd a b))
        ihl ihr (fun a b => rfl)
    | sub =>
      exact evalPE_binop lib env BOp.sub (toPExpr l) (toPExpr r)
        (evalArith lib l) (evalArith lib r) (fun a b => Except.ok (pySub a b))
        ihl ihr (fun a b => rfl)
    | mul =>
      exact evalPE_binop lib env BOp.mul (toPExpr l) (toPExpr r)
        (evalArith lib l) (evalArith lib r) (fun a b => Except.ok (pyMul a b))
        ihl ihr (fun a b => rfl)
    | div =>
      exact evalPE_binop lib env BOp.div (toPExpr l) (toPExpr r)
        (evalArith lib l) (evalArith lib r) (fun a b => pyDiv a b)
        ihl ihr (fun a b => rfl)
    | pow =>
      exact evalPE_binop lib env BOp.pow (toPExpr l) (toPExpr r)
        (evalArith lib l) (evalArith lib r) (fun a b => pyPow lib a b)
        ihl ihr (fun a b => rfl)

/-- C8: for every expression built only from numeric literals, the
operators `+ - * / **` and (minimal) balanced parentheses — rendered
from its precedence tree, where `**` binds tightest and is
right-associative, `* /` bind tighter than `+ -` and both groups are
left-associative — evaluation returns exactly the value of standard
operator-precedence evaluation of the tree, in either angle mode. -/
theorem c8_operator_precedence (lib : MathLib) (is_degree_mode : Bool)
    (t : Arith) (v : PyNum) (hv : evalArith lib t = Except.ok v) :
    evalText lib is_degree_mode (String.mk (renderArith t 0)) =
      Except.ok (PyVal.num v) := by
  have htok2 : tokA (2 * (String.mk (renderArith t 0)).data.length + 2) .top
      (String.mk (renderArith t 0)).data = Except.ok (toksArith t 0) := tok_full t
  have hpc : pc0 t ≤ 10 * ((toksArith t 0).length + 1) := by
    have h := (pc_le t).1
    omega
  have hparse := parse_full t (10 * ((toksArith t 0).length + 1)) hpc
  unfold evalText
  rw [htok2]
  simp only [exc_bind_ok]
  rw [hparse]
  simp only [exc_bind_ok]
  show evalPE lib (_build_safe_environment lib is_degree_mode) (toPExpr t) =
    Except.ok (PyVal.num v)
  rw [evalPE_toPExpr lib _ t, hv]
  rfl

/-- C8 witness: the tree of `3+4*2` evaluates to the int 11, and the
rendered text `3+4*2` evaluates to 11 through the full pipeline. -/
theorem c8_operator_precedence_witness :
    evalArith trivLib
      (Arith.bin .add (.lit 3 none) (.bin .mul (.lit 4 none) (.lit 2 none))) =
      Except.ok (PyNum.int 11) ∧
    evalText trivLib false
      (String.mk (renderArith
        (Arith.bin .add (.lit 3 none) (.bin .mul (.lit 4 none) (.lit 2 none))) 0)) =
      Except.ok (PyVal.num (PyNum.int 11)) :=
  ⟨rfl, c8_operator_precedence trivLib false _ _ rfl⟩
